import Mathlib

/-!
Verification of the appily-agent core: the streaming action-tag parser
(`ResponseProcessor.processActionTags` / `processChunk`), the action execution
queue (`ActionQueue`), the file/command executors
(`applyFileChange` / `executeCommand` / `resolveProjectPath`) and the
generation retry supervisor (`generateProjectCode`).

Each section embeds one component of the TypeScript source as executable Lean
definitions and proves the claimed properties about them.
-/

namespace Appily

/-! ## JavaScript string primitives

Texts are embedded as `List Char`.  The primitives below model the exact
JavaScript string / regex operations the source uses: `\s` membership,
`String.prototype.trim`, prefix tests (`startsWith`), and first-occurrence
search and replacement. -/

/-- JavaScript `\s` (and the `String.prototype.trim` whitespace set):
space, tab, LF, VT, FF, CR, NBSP, and the BOM; the rarer Unicode space
code points are included for completeness. -/
def isJsSpace (c : Char) : Bool :=
  c == ' ' || c == '\t' || c == '\n' || c == '\x0b' || c == '\x0c' || c == '\r' ||
  c.val == 0xa0 || c.val == 0x1680 || (0x2000 ≤ c.val && c.val ≤ 0x200a) ||
  c.val == 0x2028 || c.val == 0x2029 || c.val == 0x202f || c.val == 0x205f ||
  c.val == 0x3000 || c.val == 0xfeff

/-- `String.prototype.trim`: strip leading and trailing JS whitespace. -/
def jsTrim (s : List Char) : List Char :=
  ((s.dropWhile isJsSpace).reverse.dropWhile isJsSpace).reverse

/-- `a.startsWith(lit)`: `lit` is a prefix of `a` (character-exact). -/
def isLitAt : List Char → List Char → Bool
  | [], _ => true
  | _ :: _, [] => false
  | l :: ls, s :: ss => l == s && isLitAt ls ss

/-- Case-insensitive prefix test (for regexes with the `i` flag). -/
def isLitCIAt : List Char → List Char → Bool
  | [], _ => true
  | _ :: _, [] => false
  | l :: ls, s :: ss => l.toLower == s.toLower && isLitCIAt ls ss

/-- First index at which the literal `lit` occurs in `s`
(JavaScript `s.indexOf(lit)`, as an `Option`). -/
def firstOccur (lit : List Char) : List Char → Option Nat
  | [] => if lit.isEmpty then some 0 else none
  | c :: cs =>
      if isLitAt lit (c :: cs) then some 0
      else (firstOccur lit cs).map (· + 1)

/-- JavaScript `s.replace(target, repl)` with a string pattern: replace the
first occurrence of `target` only (identity when there is none). -/
def replaceFirst (target repl s : List Char) : List Char :=
  match firstOccur target s with
  | some i => s.take i ++ repl ++ s.drop (i + target.length)
  | none => s

/-- The length of `dropWhile` never exceeds the input length. -/
theorem dropWhile_len_le (p : α → Bool) : ∀ l : List α, (l.dropWhile p).length ≤ l.length := by
  intro l
  induction l with
  | nil => simp [List.dropWhile]
  | cons a l ih =>
      by_cases h : p a
      · simp only [List.dropWhile, h]
        exact Nat.le_succ_of_le ih
      · simp [List.dropWhile, h]

/-- Flush one maximal whitespace run (accumulated in reverse): a run that
contains a newline becomes a single space, any other run is kept verbatim. -/
def flushRun (run : List Char) : List Char :=
  if run.isEmpty then [] else if run.contains '\n' then [' '] else run.reverse

/-- JavaScript `s.replace(/\s*\n+\s*/g, ' ')`, processing the string with the
current whitespace run accumulated (in reverse) in `run`: every maximal
whitespace run that contains a newline is replaced by a single space,
whitespace runs without a newline are kept verbatim. -/
def collapseAux (run : List Char) : List Char → List Char
  | [] => flushRun run
  | c :: cs =>
      if isJsSpace c then collapseAux (c :: run) cs
      else flushRun run ++ c :: collapseAux [] cs

/-- JavaScript `s.replace(/\s*\n+\s*/g, ' ')`. -/
def collapseWsNl (s : List Char) : List Char :=
  collapseAux [] s

/-- Try `f` on each element in order, returning the first `some`. -/
def firstSome (l : List α) (f : α → Option β) : Option β :=
  match l with
  | [] => none
  | a :: as => match f a with
      | some b => some b
      | none => firstSome as f

/-- `[hi, hi-1, ..., lo]` — the trial order of a greedy regex quantifier
backtracking from its longest match down to `lo` repetitions. -/
def descRange (hi lo : Nat) : List Nat :=
  if lo > hi then [] else (List.range (hi + 1 - lo)).map (fun i => hi - i)

/-- JavaScript `\w`: ASCII letters, digits and underscore. -/
def isJsWord (c : Char) : Bool :=
  ('a' ≤ c && c ≤ 'z') || ('A' ≤ c && c ≤ 'Z') || ('0' ≤ c && c ≤ '9') || c == '_'

/-! ## Generation supervisor (`generateProjectCode`, src/services/code-generation.ts)

The retry loop of `generateProjectCode`: `MAX_RETRIES = 5`; attempts run while
`retryCount <= MAX_RETRIES`.  Each attempt runs the linter (recording
`hasActualLintErrors` and `lintError`) and then the build.  A successful build
sets `success = true` and breaks; a failed build increments `retryCount` and
loops when `retryCount < MAX_RETRIES`, otherwise breaks.  The reported result
carries `attempts = retryCount + 1`.

The lint / build runners are abstracted as oracles giving the outcome of each
attempt (attempt numbering starts at 0 = initial attempt).
-/

/-- `MAX_RETRIES` of `generateProjectCode` (src/services/code-generation.ts line 67). -/
def genMAX_RETRIES : Nat := 5

/-- Result summary of `generateProjectCode`: the fields of
`generationResultData` that the claims are about. -/
structure GenResult where
  attempts : Nat
  success : Bool
  hasActualLintErrors : Bool
  deriving Repr, DecidableEq

/-- One round of the retry loop of `generateProjectCode`, starting at a given
`retryCount`.  `lintOk n` / `buildOk n` are the outcomes of `npm run lint:fix` /
`npm run build` on the attempt with `retryCount = n`.  Structural recursion on
the remaining budget `genMAX_RETRIES + 1 - retryCount` mirrors the
`while (retryCount <= MAX_RETRIES)` loop: the body runs lint, then build;
build success breaks with `success = true`; build failure either increments
`retryCount` (when `retryCount < MAX_RETRIES`) or breaks. -/
def genLoop (lintOk buildOk : Nat → Bool) : Nat → Nat → GenResult
  | 0, retryCount =>
      -- unreachable from the initial call: the loop breaks (build success, or
      -- build failure with retryCount = MAX_RETRIES) before the fuel runs out
      { attempts := retryCount + 1, success := false, hasActualLintErrors := false }
  | fuel + 1, retryCount =>
      let lintErrors := !lintOk retryCount
      if buildOk retryCount then
        { attempts := retryCount + 1, success := true, hasActualLintErrors := lintErrors }
      else if retryCount < genMAX_RETRIES then
        genLoop lintOk buildOk fuel (retryCount + 1)
      else
        { attempts := retryCount + 1, success := false, hasActualLintErrors := lintErrors }

/-- The retry loop of `generateProjectCode`, from the initial state
(`retryCount = 0`, fuel for `MAX_RETRIES + 1` attempts). -/
def generateProjectCode (lintOk buildOk : Nat → Bool) : GenResult :=
  genLoop lintOk buildOk (genMAX_RETRIES + 1) 0

/-- The `attempts` and `success` fields of the supervisor's result depend only
on the build oracle, never on the lint oracle: the loop body runs the build
unconditionally after recording the lint outcome, and only the build result is
consulted for break / retry decisions. -/
theorem genLoop_lint_irrelevant (l₁ l₂ buildOk : Nat → Bool) :
    ∀ fuel rc, (genLoop l₁ buildOk fuel rc).attempts = (genLoop l₂ buildOk fuel rc).attempts ∧
      (genLoop l₁ buildOk fuel rc).success = (genLoop l₂ buildOk fuel rc).success := by
  intro fuel
  induction fuel with
  | zero => intro rc; exact ⟨rfl, rfl⟩
  | succ n ih =>
      intro rc
      simp only [genLoop]
      by_cases hb : buildOk rc
      · simp [hb]
      · by_cases hr : rc < genMAX_RETRIES
        · simpa [hb, hr] using ih (rc + 1)
        · simp [hb, hr]

/-- If the build fails on every attempt up to and including attempt
`retryCount = 5`, the loop exhausts its retries: `attempts = 6`,
`success = false`, and the last attempt's lint outcome is what is reported. -/
theorem generateProjectCode_allFail (lintOk buildOk : Nat → Bool)
    (h : ∀ i, i ≤ genMAX_RETRIES → buildOk i = false) :
    generateProjectCode lintOk buildOk =
      { attempts := 6, success := false, hasActualLintErrors := !lintOk 5 } := by
  have h0 := h 0 (by decide)
  have h1 := h 1 (by decide)
  have h2 := h 2 (by decide)
  have h3 := h 3 (by decide)
  have h4 := h 4 (by decide)
  have h5 := h 5 (by decide)
  simp [generateProjectCode, genLoop, genMAX_RETRIES, h0, h1, h2, h3, h4, h5]

/-- The loop terminates at the first successful build: if the builds of
attempts `0 .. k-1` fail and attempt `k`'s build succeeds (`k ≤ 5`), the
result reports `success = true` and `attempts = k + 1` (`k` retries were
performed), with the last attempt's lint outcome. -/
theorem generateProjectCode_firstSuccess (lintOk buildOk : Nat → Bool) (k : Nat)
    (hk : k ≤ genMAX_RETRIES) (hfail : ∀ i, i < k → buildOk i = false)
    (hsucc : buildOk k = true) :
    generateProjectCode lintOk buildOk =
      { attempts := k + 1, success := true, hasActualLintErrors := !lintOk k } := by
  have hk' : k ≤ 5 := hk
  interval_cases k
  · simp [generateProjectCode, genLoop, genMAX_RETRIES, hsucc]
  · have h0 := hfail 0 (by norm_num)
    simp [generateProjectCode, genLoop, genMAX_RETRIES, h0, hsucc]
  · have h0 := hfail 0 (by norm_num)
    have h1 := hfail 1 (by norm_num)
    simp [generateProjectCode, genLoop, genMAX_RETRIES, h0, h1, hsucc]
  · have h0 := hfail 0 (by norm_num)
    have h1 := hfail 1 (by norm_num)
    have h2 := hfail 2 (by norm_num)
    simp [generateProjectCode, genLoop, genMAX_RETRIES, h0, h1, h2, hsucc]
  · have h0 := hfail 0 (by norm_num)
    have h1 := hfail 1 (by norm_num)
    have h2 := hfail 2 (by norm_num)
    have h3 := hfail 3 (by norm_num)
    simp [generateProjectCode, genLoop, genMAX_RETRIES, h0, h1, h2, h3, hsucc]
  · have h0 := hfail 0 (by norm_num)
    have h1 := hfail 1 (by norm_num)
    have h2 := hfail 2 (by norm_num)
    have h3 := hfail 3 (by norm_num)
    have h4 := hfail 4 (by norm_num)
    simp [generateProjectCode, genLoop, genMAX_RETRIES, h0, h1, h2, h3, h4, hsucc]

/-- C4 counterexample: a run whose builds fail on the first 5 attempts
(retryCount 0..4) — exhausting all 5 retries — and succeed on the 6th ends
with `success = true` and `attempts = 6`, so "5 consecutive build failures
exhaust the retries and the final result has success=false, attempts=6" is
false: 5 consecutive build failures leave the outcome of the 6th attempt, and
hence the reported `success`, still open. -/
theorem C4_counterexample :
    (∀ i, i < 5 → (fun n => decide (n = 5)) i = false) ∧
      (Appily.generateProjectCode (fun _ => true) (fun n => decide (n = 5))).success = true ∧
      (Appily.generateProjectCode (fun _ => true) (fun n => decide (n = 5))).attempts = 6 := by
  refine ⟨by decide, ?_, ?_⟩ <;>
    simp [generateProjectCode, genLoop, genMAX_RETRIES]

/-- C4 (amended): the supervisor retries up to `MAX_RETRIES = 5` rounds after
the initial attempt, terminating on the first build success with the reported
attempts counter equal to retries performed + 1; only when all 6 builds
(initial + 5 retries) fail is the final result reported with `success = false`
and `attempts = 6`. -/
theorem C4_supervisor_retry_bound :
    genMAX_RETRIES = 5 ∧
    (∀ lintOk buildOk : Nat → Bool, (∀ i, i ≤ genMAX_RETRIES → buildOk i = false) →
      (generateProjectCode lintOk buildOk).success = false ∧
      (generateProjectCode lintOk buildOk).attempts = 6) ∧
    (∀ (lintOk buildOk : Nat → Bool) (k : Nat), k ≤ genMAX_RETRIES →
      (∀ i, i < k → buildOk i = false) → buildOk k = true →
      (generateProjectCode lintOk buildOk).success = true ∧
      (generateProjectCode lintOk buildOk).attempts = k + 1) := by
  refine ⟨rfl, ?_, ?_⟩
  · intro lintOk buildOk h
    rw [generateProjectCode_allFail lintOk buildOk h]
    exact ⟨rfl, rfl⟩
  · intro lintOk buildOk k hk hfail hsucc
    rw [generateProjectCode_firstSuccess lintOk buildOk k hk hfail hsucc]
    exact ⟨rfl, rfl⟩

/-- Witness for C4: all six builds of the constantly-failing oracle fail, and
the supervisor then reports failure after 6 attempts; with a build oracle
succeeding at once it reports success after 1 attempt. -/
theorem C4_supervisor_retry_bound_witness :
    (Appily.generateProjectCode (fun _ => true) (fun _ => false)).success = false ∧
      (Appily.generateProjectCode (fun _ => true) (fun _ => false)).attempts = 6 ∧
      (Appily.generateProjectCode (fun _ => true) (fun _ => true)).success = true ∧
      (Appily.generateProjectCode (fun _ => true) (fun _ => true)).attempts = 1 := by
  obtain ⟨-, hall, hfirst⟩ := C4_supervisor_retry_bound
  obtain ⟨hs, ha⟩ := hall (fun _ => true) (fun _ => false) (fun _ _ => rfl)
  obtain ⟨hs', ha'⟩ := hfirst (fun _ => true) (fun _ => true) 0 (by decide)
    (fun i hi => absurd hi (Nat.not_lt_zero i)) rfl
  exact ⟨hs, ha, hs', ha'⟩

/-- C8 counterexample: with a failing lint and a succeeding build on the very
first attempt, the loop terminates immediately as a success
(`attempts = 1`, `success = true`, `hasActualLintErrors = true`): a lint
failure does not trigger a retry round, and an attempt with unresolved lint
errors does terminate the loop as a success. -/
theorem C8_counterexample :
    Appily.generateProjectCode (fun _ => false) (fun _ => true) =
      { attempts := 1, success := true, hasActualLintErrors := true } := by
  simp [generateProjectCode, genLoop, genMAX_RETRIES]

/-- C8 (amended): a lint failure is non-fatal — it is recorded in
`hasActualLintErrors` and never aborts the attempt — but it does not trigger a
retry round: the `attempts` and `success` outcome of the supervisor depends
only on the build oracle, and an attempt whose build succeeds terminates the
loop as a success even when its lint failed. -/
theorem C8_lint_nonfatal :
    (∀ l₁ l₂ buildOk : Nat → Bool,
      (generateProjectCode l₁ buildOk).attempts = (generateProjectCode l₂ buildOk).attempts ∧
      (generateProjectCode l₁ buildOk).success = (generateProjectCode l₂ buildOk).success) ∧
    (∀ lintOk buildOk : Nat → Bool, buildOk 0 = true →
      generateProjectCode lintOk buildOk =
        { attempts := 1, success := true, hasActualLintErrors := !lintOk 0 }) := by
  constructor
  · intro l₁ l₂ buildOk
    exact genLoop_lint_irrelevant l₁ l₂ buildOk (genMAX_RETRIES + 1) 0
  · intro lintOk buildOk h
    exact generateProjectCode_firstSuccess lintOk buildOk 0 (by decide)
      (fun i hi => absurd hi (Nat.not_lt_zero i)) h

/-- Witness for C8: instantiating at a failing lint oracle and an immediately
succeeding build oracle. -/
theorem C8_lint_nonfatal_witness :
    Appily.generateProjectCode (fun _ => false) (fun _ => true) =
      { attempts := 1, success := true, hasActualLintErrors := true } := by
  have h := C8_lint_nonfatal.2 (fun _ => false) (fun _ => true) rfl
  simpa using h

/-! ## Command cleaning (`executeCommand`, src/services/file-operation-service.ts)

`executeCommand` first normalizes the raw command string:
`command.trim().replace(/\s*\n+\s*/g, ' ')`, then (for strings longer than 20
characters) removes AI duplication: either the second half repeats the first
half (keep the trimmed first half), or one of two backreference regexes
detects a repeated `npm`/`npx` or `shadcn` command.  The `CommandResult` it
returns carries the cleaned command. -/

/-- The character class `[\w@.-]` of the npm-duplication regex. -/
def isNpmCls (c : Char) : Bool :=
  isJsWord c || c == '@' || c == '.' || c == '-'

/-- The character class `[\w\s@.-]` (group 3 of the npm-duplication regex). -/
def isNpmCls2 (c : Char) : Bool :=
  isJsWord c || isJsSpace c || c == '@' || c == '.' || c == '-'

/-- The character class `[\w/.-]` (`--path=` argument of the shadcn regex). -/
def isShadcnPathCls (c : Char) : Bool :=
  isJsWord c || c == '/' || c == '.' || c == '-'

/-- The character class `[\w\s-]` (group 2 of the shadcn regex). -/
def isShadcnTailCls (c : Char) : Bool :=
  isJsWord c || isJsSpace c || c == '-'

/-- Length of the leading JS-whitespace run. -/
def wsLen (s : List Char) : Nat :=
  (s.takeWhile isJsSpace).length

/-- Group-1 candidates of `/(npm\s+(install|run)|npx\s+[\w@.-]+).../i` at the
head of `s`, in backtracking trial order: each candidate is the captured
group-1 text together with the remaining suffix. -/
def npmG1Cands (s : List Char) : List (List Char × List Char) :=
  let alt1 :=
    if isLitCIAt ('n' :: 'p' :: 'm' :: []) s then
      let afterNpm := s.drop 3
      (descRange (wsLen afterNpm) 1).flatMap (fun k =>
        let rest := afterNpm.drop k
        (if isLitCIAt ('i' :: 'n' :: 's' :: 't' :: 'a' :: 'l' :: 'l' :: []) rest then
          [(s.take (3 + k + 7), rest.drop 7)] else []) ++
        (if isLitCIAt ('r' :: 'u' :: 'n' :: []) rest then
          [(s.take (3 + k + 3), rest.drop 3)] else []))
    else []
  let alt2 :=
    if isLitCIAt ('n' :: 'p' :: 'x' :: []) s then
      let afterNpx := s.drop 3
      (descRange (wsLen afterNpx) 1).flatMap (fun k =>
        let rest := afterNpx.drop k
        (descRange ((rest.takeWhile isNpmCls).length) 1).map
          (fun m => (s.take (3 + k + m), rest.drop m)))
    else []
  alt1 ++ alt2

/-- Anchored match of
`/(npm\s+(install|run)|npx\s+[\w@.-]+)\s+([\w\s@.-]+)(\s+\1\s+\3)/i` at the
head of `s`; returns the group-4 text of the first successful backtracking
assignment (greedy quantifiers try longest first; backreferences compare
case-insensitively). -/
def npmDupAt (s : List Char) : Option (List Char) :=
  firstSome (npmG1Cands s) (fun p =>
    let g1 := p.1
    let r1 := p.2
    firstSome (descRange (wsLen r1) 1) (fun k2 =>
      let r2 := r1.drop k2
      firstSome (descRange ((r2.takeWhile isNpmCls2).length) 1) (fun m3 =>
        let g3 := r2.take m3
        let r3 := r2.drop m3
        firstSome (descRange (wsLen r3) 1) (fun k3 =>
          let r4 := r3.drop k3
          if isLitCIAt g1 r4 then
            let r5 := r4.drop g1.length
            firstSome (descRange (wsLen r5) 1) (fun k4 =>
              let r6 := r5.drop k4
              if isLitCIAt g3 r6 then
                some (r3.take (k3 + g1.length + k4 + g3.length))
              else none)
          else none))))

/-- Leftmost match of the npm-duplication regex: scan start positions left to
right, full backtracking at each. -/
def npmDupMatch : List Char → Option (List Char)
  | [] => none
  | c :: cs =>
      match npmDupAt (c :: cs) with
      | some g4 => some g4
      | none => npmDupMatch cs

/-- Anchored match of the shadcn-duplication regex
`/(npx\s+shadcn@latest\s+add\s+--yes\s+--overwrite\s+--path=[\w/.-]+)(\s+[\w\s-]+)(\s+\1)/i`
at the head of `s`; returns the group-1 and group-2 texts. -/
def shadcnDupAt (s : List Char) : Option (List Char × List Char) :=
  if isLitCIAt ('n' :: 'p' :: 'x' :: []) s then
    let r0 := s.drop 3
    firstSome (descRange (wsLen r0) 1) (fun k1 =>
      let r1 := r0.drop k1
      if isLitCIAt ('s' :: 'h' :: 'a' :: 'd' :: 'c' :: 'n' :: '@' :: 'l' :: 'a' :: 't' :: 'e' :: 's' :: 't' :: []) r1 then
        let r2 := r1.drop 13
        firstSome (descRange (wsLen r2) 1) (fun k2 =>
          let r3 := r2.drop k2
          if isLitCIAt ('a' :: 'd' :: 'd' :: []) r3 then
            let r4 := r3.drop 3
            firstSome (descRange (wsLen r4) 1) (fun k3 =>
              let r5 := r4.drop k3
              if isLitCIAt ('-' :: '-' :: 'y' :: 'e' :: 's' :: []) r5 then
                let r6 := r5.drop 5
                firstSome (descRange (wsLen r6) 1) (fun k4 =>
                  let r7 := r6.drop k4
                  if isLitCIAt ('-' :: '-' :: 'o' :: 'v' :: 'e' :: 'r' :: 'w' :: 'r' :: 'i' :: 't' :: 'e' :: []) r7 then
                    let r8 := r7.drop 11
                    firstSome (descRange (wsLen r8) 1) (fun k5 =>
                      let r9 := r8.drop k5
                      if isLitCIAt ('-' :: '-' :: 'p' :: 'a' :: 't' :: 'h' :: '=' :: []) r9 then
                        let r10 := r9.drop 7
                        firstSome (descRange ((r10.takeWhile isShadcnPathCls).length) 1) (fun m1 =>
                          let g1 := s.take (3 + k1 + 13 + k2 + 3 + k3 + 5 + k4 + 11 + k5 + 7 + m1)
                          let r11 := r10.drop m1
                          firstSome (descRange (wsLen r11) 1) (fun k6 =>
                            let r12 := r11.drop k6
                            firstSome (descRange ((r12.takeWhile isShadcnTailCls).length) 1) (fun m2 =>
                              let g2 := r11.take (k6 + m2)
                              let r13 := r12.drop m2
                              firstSome (descRange (wsLen r13) 1) (fun k7 =>
                                if isLitCIAt g1 (r13.drop k7) then some (g1, g2) else none))))
                      else none)
                  else none)
              else none)
          else none)
      else none)
  else none

/-- Leftmost match of the shadcn-duplication regex. -/
def shadcnDupMatch : List Char → Option (List Char × List Char)
  | [] => none
  | c :: cs =>
      match shadcnDupAt (c :: cs) with
      | some r => some r
      | none => shadcnDupMatch cs

/-- The command normalization performed at the top of `executeCommand`
(src/services/file-operation-service.ts lines 204-233): trim, collapse
whitespace runs containing newlines to a single space, then — for strings of
more than 20 characters — de-duplicate: if the second half starts with the
first (up to) 20 characters of the first half, keep the trimmed first half;
otherwise apply the npm- and shadcn-duplication regex fixes in sequence. -/
def cleanCommand (command : List Char) : List Char :=
  let cleaned := collapseWsNl (jsTrim command)
  if 20 < cleaned.length then
    let halfLength := cleaned.length / 2
    let firstHalf := cleaned.take halfLength
    let secondHalf := cleaned.drop halfLength
    if isLitAt (firstHalf.take 20) secondHalf then jsTrim firstHalf
    else
      let c1 :=
        match npmDupMatch cleaned with
        | some g4 => replaceFirst g4 [] cleaned
        | none => cleaned
      match shadcnDupMatch c1 with
      | some r => r.1 ++ r.2
      | none => c1
  else cleaned

/-- A `CommandResult` (src/utils/action-queue.ts): what `executeCommand`
returns, plus the queue's `timestamp`/`actionId` bookkeeping. -/
structure CommandResult where
  command : List Char
  success : Bool
  stdout : List Char
  stderr : List Char
  actionId : Nat
  deriving Repr, DecidableEq

/-- `executeCommand` with the process runner abstracted: the runner receives
the cleaned command and yields `(success, stdout, stderr)`; both the success
and the failure path of the source return the cleaned command string in the
`command` field. -/
def executeCommand (command : List Char) (actionId : Nat)
    (runner : List Char → Bool × List Char × List Char) : CommandResult :=
  let cleaned := cleanCommand command
  let r := runner cleaned
  { command := cleaned, success := r.1, stdout := r.2.1, stderr := r.2.2, actionId := actionId }

example :
    cleanCommand "  npm i\n\nreact  ".data = "npm i react".data := by decide

example :
    cleanCommand "npm install react-domnpm install react-dom".data =
      "npm install react-dom".data := by decide

/-! ## Action queue (`ActionQueue`, src/utils/action-queue.ts)

`ActionQueue.startProcessing` runs a single dispatch loop over the FIFO
queue.  The loop body: peek the head; if its `retryCount` has already reached
`MAX_RETRIES = 3`, shift it (skip); otherwise, if unprocessed, run
`processAction`; on success mark processed and shift; on failure increment
`retryCount`, and either mark processed and shift (when the incremented count
reaches `MAX_RETRIES`) or move the action to the tail of the queue.

Two embeddings are given.  `runQueueFuel` is the sequential dispatch loop with
the outcome of `processAction` abstracted as an oracle (used for the retry /
drain claims).  `QueueStep` is a small-step relation over the cooperative
suspension points (used for the pending-command and command-history claims).
-/

/-- The five action tag types. -/
inductive ActionType
  | CREATE | EDIT | DELETE | COMMAND | TEXT
  deriving Repr, DecidableEq

/-- `QueuedAction` (src/utils/action-queue.ts lines 17-25); the `timestamp`
field is irrelevant to every claim and omitted. -/
structure QueuedAction where
  type : ActionType
  path : Option (List Char)
  content : List Char
  processed : Bool
  retryCount : Nat
  id : Nat
  deriving Repr, DecidableEq

/-- `MAX_RETRIES` of `ActionQueue` (src/utils/action-queue.ts line 44). -/
def qMAX_RETRIES : Nat := 3

/-- One observable event per iteration of the dispatch loop. -/
inductive QueueEvent
  /-- Line 207: head's `retryCount` is already `≥ MAX_RETRIES`; shifted
  without processing. -/
  | skippedMaxRetries (a : QueuedAction)
  /-- Head already marked processed: shifted without processing. -/
  | alreadyProcessed (a : QueuedAction)
  /-- `processAction` returned true: marked processed and shifted. -/
  | succeeded (a : QueuedAction)
  /-- `processAction` failed and the incremented `retryCount` reached
  `MAX_RETRIES`: force-marked processed and shifted (dropped). -/
  | droppedAfterFailures (a : QueuedAction)
  /-- `processAction` failed with the incremented `retryCount` still below
  `MAX_RETRIES`: moved to the tail of the queue. -/
  | requeued (a : QueuedAction)
  deriving Repr, DecidableEq

/-- Fuel bound for the dispatch loop: each queued action can occupy at most
`MAX_RETRIES - retryCount + 1` loop iterations. -/
def queueMeasure (q : List QueuedAction) : Nat :=
  (q.map (fun a => qMAX_RETRIES - a.retryCount + 1)).sum

/-- The dispatch loop of `startProcessing` (src/utils/action-queue.ts lines
195-239) with `processAction`'s outcome abstracted by the oracle `ok`
(`false` covers both a thrown error and an explicit `false` return).
Returns the event trace and the queue left when the fuel runs out. -/
def runQueueFuel (ok : QueuedAction → Bool) :
    Nat → List QueuedAction → List QueueEvent × List QueuedAction
  | 0, q => ([], q)
  | _ + 1, [] => ([], [])
  | fuel + 1, a :: rest =>
      if qMAX_RETRIES ≤ a.retryCount then
        let r := runQueueFuel ok fuel rest
        (QueueEvent.skippedMaxRetries a :: r.1, r.2)
      else if a.processed then
        let r := runQueueFuel ok fuel rest
        (QueueEvent.alreadyProcessed a :: r.1, r.2)
      else if ok a then
        let r := runQueueFuel ok fuel rest
        (QueueEvent.succeeded { a with processed := true } :: r.1, r.2)
      else if qMAX_RETRIES ≤ a.retryCount + 1 then
        let r := runQueueFuel ok fuel rest
        (QueueEvent.droppedAfterFailures
          { a with retryCount := a.retryCount + 1, processed := true } :: r.1, r.2)
      else
        let a' := { a with retryCount := a.retryCount + 1 }
        let r := runQueueFuel ok fuel (rest ++ [a'])
        (QueueEvent.requeued a' :: r.1, r.2)

/-- The dispatch loop run to completion: the fuel `queueMeasure q` is enough
(each iteration strictly decreases the measure). -/
def runQueue (q : List QueuedAction) (ok : QueuedAction → Bool) :
    List QueueEvent × List QueuedAction :=
  runQueueFuel ok (queueMeasure q) q

/-- The action snapshot carried by a queue event. -/
def QueueEvent.action : QueueEvent → QueuedAction
  | .skippedMaxRetries a => a
  | .alreadyProcessed a => a
  | .succeeded a => a
  | .droppedAfterFailures a => a
  | .requeued a => a

/-- `queueMeasure` distributes over append. -/
theorem queueMeasure_append (l₁ l₂ : List QueuedAction) :
    queueMeasure (l₁ ++ l₂) = queueMeasure l₁ + queueMeasure l₂ := by
  simp [queueMeasure]

/-- With fuel at least `queueMeasure q` the dispatch loop empties the queue:
every iteration strictly decreases the measure, so the queue drains — even a
permanently failing action cannot make the loop run forever. -/
theorem runQueueFuel_drains (ok : QueuedAction → Bool) :
    ∀ fuel q, queueMeasure q ≤ fuel → (runQueueFuel ok fuel q).2 = [] := by
  intro fuel
  induction fuel with
  | zero =>
      intro q hq
      cases q with
      | nil => rfl
      | cons a rest =>
          exfalso
          simp [queueMeasure] at hq
  | succ n ih =>
      intro q hq
      cases q with
      | nil => rfl
      | cons a rest =>
          have hm : (qMAX_RETRIES - a.retryCount + 1) + queueMeasure rest ≤ n + 1 := by
            have : queueMeasure (a :: rest) =
                (qMAX_RETRIES - a.retryCount + 1) + queueMeasure rest := by
              simp [queueMeasure]
            omega
          simp only [runQueueFuel]
          split_ifs with h1 h2 h3 h4
          · exact ih rest (by omega)
          · exact ih rest (by omega)
          · exact ih rest (by omega)
          · exact ih rest (by omega)
          · refine ih (rest ++ [{ a with retryCount := a.retryCount + 1 }]) ?_
            rw [queueMeasure_append]
            have h6 : queueMeasure [{ a with retryCount := a.retryCount + 1 }] =
                qMAX_RETRIES - (a.retryCount + 1) + 1 := by
              simp [queueMeasure]
            rw [h6]
            omega

/-- If every queued action's `retryCount` is at most `MAX_RETRIES` (as holds
for freshly enqueued actions, which start at 0), then every event the
dispatch loop emits carries an action with `retryCount ≤ MAX_RETRIES`:
the count is only incremented on a failure of an action that was strictly
below the limit. -/
theorem runQueueFuel_retry_bound (ok : QueuedAction → Bool) :
    ∀ fuel q, (∀ a ∈ q, a.retryCount ≤ qMAX_RETRIES) →
      ∀ e ∈ (runQueueFuel ok fuel q).1, e.action.retryCount ≤ qMAX_RETRIES := by
  intro fuel
  induction fuel with
  | zero => intro q _ e he; simp [runQueueFuel] at he
  | succ n ih =>
      intro q hq e he
      cases q with
      | nil => simp [runQueueFuel] at he
      | cons a rest =>
          have ha : a.retryCount ≤ qMAX_RETRIES := hq a (by simp)
          have hrest : ∀ b ∈ rest, b.retryCount ≤ qMAX_RETRIES :=
            fun b hb => hq b (by simp [hb])
          simp only [runQueueFuel] at he
          split_ifs at he with h1 h2 h3 h4
          · rcases List.mem_cons.mp he with rfl | he'
            · exact ha
            · exact ih rest hrest e he'
          · rcases List.mem_cons.mp he with rfl | he'
            · exact ha
            · exact ih rest hrest e he'
          · rcases List.mem_cons.mp he with rfl | he'
            · exact ha
            · exact ih rest hrest e he'
          · rcases List.mem_cons.mp he with rfl | he'
            · simpa [QueueEvent.action] using by omega
            · exact ih rest hrest e he'
          · rcases List.mem_cons.mp he with rfl | he'
            · simpa [QueueEvent.action] using by omega
            · refine ih (rest ++ [{ a with retryCount := a.retryCount + 1 }]) ?_ e he'
              intro b hb
              rcases List.mem_append.mp hb with hb' | hb'
              · exact hrest b hb'
              · simp at hb'
                subst hb'
                simp
                omega

/-- Whether an event records a failure of `processAction` (a thrown error or
an explicit `false`): the action was either requeued or dropped. -/
def QueueEvent.isFailure : QueueEvent → Bool
  | .requeued _ => true
  | .droppedAfterFailures _ => true
  | _ => false

/-- A permanently failing action as freshly enqueued by `addAction`
(`processed = false`, `retryCount = 0`). -/
def permaFail : QueuedAction :=
  { type := ActionType.COMMAND, path := none, content := [], processed := false,
    retryCount := 0, id := 1 }

/-- C3 counterexample: a permanently failing action (enqueued with
`retryCount = 0`) is processed exactly `MAX_RETRIES = 3` times — the third
failure already force-marks it processed and drops it — so it never fails
`MAX_RETRIES + 1 = 4` times, contradicting the claim's account of when the
drop happens.  The trace: two failures move it to the tail with retry counts
1 and 2; the third failure drops it. -/
theorem C3_counterexample :
    (runQueue [permaFail] (fun _ => false)).1 =
      [QueueEvent.requeued { permaFail with retryCount := 1 },
       QueueEvent.requeued { permaFail with retryCount := 2 },
       QueueEvent.droppedAfterFailures { permaFail with retryCount := 3, processed := true }] ∧
    ((runQueue [permaFail] (fun _ => false)).1.countP (fun e => e.isFailure)) = qMAX_RETRIES ∧
    qMAX_RETRIES ≠ qMAX_RETRIES + 1 := by
  refine ⟨by decide, by decide, by decide⟩

/-- C3 (amended): each failure of `processAction` increments the action's
`retryCount`; while the incremented count is still below `MAX_RETRIES = 3` the
action moves to the tail of the queue (not the head); the failure that brings
the count to `MAX_RETRIES` force-marks the action `processed = true` and drops
it.  Consequently, for a queue of freshly enqueued actions, `retryCount` never
exceeds `MAX_RETRIES`, and the dispatch loop always drains the queue — no
permanently failing action can prevent `waitUntilComplete` from resolving. -/
theorem C3_retry_requeue_policy :
    (∀ (ok : QueuedAction → Bool) (fuel : Nat) (a : QueuedAction) (rest : List QueuedAction),
      a.processed = false → ok a = false → a.retryCount + 1 < qMAX_RETRIES →
      runQueueFuel ok (fuel + 1) (a :: rest) =
        (QueueEvent.requeued { a with retryCount := a.retryCount + 1 } ::
          (runQueueFuel ok fuel (rest ++ [{ a with retryCount := a.retryCount + 1 }])).1,
         (runQueueFuel ok fuel (rest ++ [{ a with retryCount := a.retryCount + 1 }])).2)) ∧
    (∀ (ok : QueuedAction → Bool) (fuel : Nat) (a : QueuedAction) (rest : List QueuedAction),
      a.processed = false → ok a = false → a.retryCount + 1 = qMAX_RETRIES →
      runQueueFuel ok (fuel + 1) (a :: rest) =
        (QueueEvent.droppedAfterFailures
            { a with retryCount := a.retryCount + 1, processed := true } ::
          (runQueueFuel ok fuel rest).1, (runQueueFuel ok fuel rest).2)) ∧
    (∀ (ok : QueuedAction → Bool) (q : List QueuedAction),
      (∀ a ∈ q, a.retryCount ≤ qMAX_RETRIES) →
      ∀ e ∈ (runQueue q ok).1, e.action.retryCount ≤ qMAX_RETRIES) ∧
    (∀ (ok : QueuedAction → Bool) (q : List QueuedAction), (runQueue q ok).2 = []) := by
  refine ⟨?_, ?_, ?_, ?_⟩
  · intro ok fuel a rest hp hok hlt
    simp only [runQueueFuel]
    rw [if_neg (by omega), if_neg (by simp [hp]), if_neg (by simp [hok]),
      if_neg (by omega)]
  · intro ok fuel a rest hp hok heq
    simp only [runQueueFuel]
    rw [if_neg (by omega), if_neg (by simp [hp]), if_neg (by simp [hok]),
      if_pos (by omega)]
  · intro ok q hq
    exact runQueueFuel_retry_bound ok (queueMeasure q) q hq
  · intro ok q
    exact runQueueFuel_drains ok (queueMeasure q) q (Nat.le_refl _)

/-- Witness for C3: the policy applied to a concrete failing action — its
first failure requeues it at retry count 1, and a concrete queue drains. -/
theorem C3_retry_requeue_policy_witness :
    runQueueFuel (fun _ => false) 4 [permaFail] =
      (QueueEvent.requeued { permaFail with retryCount := 1 } ::
        (runQueueFuel (fun _ => false) 3 [{ permaFail with retryCount := 1 }]).1,
       (runQueueFuel (fun _ => false) 3 [{ permaFail with retryCount := 1 }]).2) ∧
    (runQueue [permaFail] (fun _ => false)).2 = [] := by
  constructor
  · have h := C3_retry_requeue_policy.1 (fun _ => false) 3 permaFail [] rfl rfl (by decide)
    simpa using h
  · exact C3_retry_requeue_policy.2.2.2 (fun _ => false) _

/-! ### Small-step model of one `ActionQueue` instance

The dispatch loop suspends at each `await`: in particular at the
`executeCommand` call and at the 2-second settle delay after it, during which
the parser may keep enqueueing actions.  The phases of the single dispatch
loop (`isProcessing` admits only one) are made explicit; `pendingCommands` is
the set of action ids of commands dispatched and not yet completed. -/

/-- Where the single dispatch loop currently is. -/
inductive QueuePhase
  /-- No dispatch loop running (`isProcessing = false`). -/
  | idle
  /-- At the top of the `while` loop of `startProcessing`. -/
  | loopHead
  /-- Inside `processAction` on a COMMAND action, awaiting `executeCommand`;
  the action's id has been added to `pendingCommands`. -/
  | running (a : QueuedAction)
  /-- `executeCommand` returned and its result was pushed onto
  `commandHistory`; in the 2-second settle delay before the id is removed
  from `pendingCommands`. -/
  | settling (a : QueuedAction)
  deriving Repr, DecidableEq

/-- The observable state of one `ActionQueue` instance. -/
structure QueueState where
  queue : List QueuedAction
  pendingCommands : List Nat
  phase : QueuePhase
  commandHistory : List CommandResult
  deriving Repr, DecidableEq

/-- A fresh `ActionQueue`. -/
def initQueueState : QueueState :=
  { queue := [], pendingCommands := [], phase := .idle, commandHistory := [] }

/-- The `CommandResult` pushed onto `commandHistory` after `executeCommand`
returns for the COMMAND action `a`: it records the cleaned command string,
not the raw action content. -/
def mkCmdResult (a : QueuedAction) (ok : Bool) (out err : List Char) : CommandResult :=
  { command := cleanCommand a.content, success := ok, stdout := out, stderr := err,
    actionId := a.id }

/-- The requeue-or-drop bookkeeping applied to a failed head action
(src/utils/action-queue.ts lines 219-230). -/
def failureRequeue (a : QueuedAction) (rest : List QueuedAction) : List QueuedAction :=
  if qMAX_RETRIES ≤ a.retryCount + 1 then rest
  else rest ++ [{ a with retryCount := a.retryCount + 1 }]

/-- One cooperative step of an `ActionQueue` instance.  `enqueue` may
interleave at any suspension point (the parser runs concurrently);
the dispatch-loop steps mirror `startProcessing` / `processAction`. -/
inductive QueueStep : QueueState → QueueState → Prop
  /-- `addAction`: a freshly created action is appended to the queue. -/
  | enqueue (s : QueueState) (a : QueuedAction) (hp : a.processed = false)
      (hr : a.retryCount = 0) :
      QueueStep s { s with queue := s.queue ++ [a] }
  /-- `startProcessing` begins the dispatch loop when none is running. -/
  | startLoop (s : QueueState) (h : s.phase = .idle) (hq : s.queue ≠ []) :
      QueueStep s { s with phase := .loopHead }
  /-- The `while` loop exits on an empty queue (`isProcessing := false`). -/
  | exitLoop (s : QueueState) (h : s.phase = .loopHead) (hq : s.queue = []) :
      QueueStep s { s with phase := .idle }
  /-- Lines 199-204: a command is pending, so the head is deferred — sleep
  and re-check; no state changes and in particular no second command starts. -/
  | deferPending (s : QueueState) (h : s.phase = .loopHead) (hq : s.queue ≠ [])
      (hp : s.pendingCommands ≠ []) : QueueStep s s
  /-- Line 207: the head has exhausted its retries; shift it. -/
  | skipMaxRetries (s : QueueState) (a : QueuedAction) (rest : List QueuedAction)
      (h : s.phase = .loopHead) (hq : s.queue = a :: rest)
      (hpend : s.pendingCommands = []) (hr : qMAX_RETRIES ≤ a.retryCount) :
      QueueStep s { s with queue := rest }
  /-- A CREATE/EDIT/DELETE/TEXT head action is processed synchronously with
  outcome `ok`; success shifts it, failure applies the requeue-or-drop
  bookkeeping. -/
  | processSync (s : QueueState) (a : QueuedAction) (rest : List QueuedAction) (ok : Bool)
      (h : s.phase = .loopHead) (hq : s.queue = a :: rest)
      (hpend : s.pendingCommands = []) (hr : a.retryCount < qMAX_RETRIES)
      (hp : a.processed = false) (ht : a.type ≠ ActionType.COMMAND) :
      QueueStep s { s with queue := if ok then rest else failureRequeue a rest }
  /-- A COMMAND head action is dispatched: both guards (lines 199 and 286)
  require that no command is pending; its id becomes pending and the loop
  awaits `executeCommand`. -/
  | dispatchCommand (s : QueueState) (a : QueuedAction) (rest : List QueuedAction)
      (h : s.phase = .loopHead) (hq : s.queue = a :: rest)
      (hpend : s.pendingCommands = []) (hr : a.retryCount < qMAX_RETRIES)
      (hp : a.processed = false) (ht : a.type = ActionType.COMMAND) :
      QueueStep s { s with pendingCommands := [a.id], phase := .running a }
  /-- `executeCommand` returns (it catches its own errors, so failure is a
  `success = false` result): the result — with the cleaned command string —
  is pushed onto `commandHistory`, and the 2-second settle delay begins. -/
  | commandReturn (s : QueueState) (a : QueuedAction) (ok : Bool) (out err : List Char)
      (h : s.phase = .running a) :
      QueueStep s { s with phase := .settling a,
                           commandHistory := s.commandHistory ++ [mkCmdResult a ok out err] }
  /-- `processAction`'s catch path: something threw around the command; the
  id is removed from `pendingCommands` and the failure bookkeeping runs. -/
  | commandThrow (s : QueueState) (a : QueuedAction) (rest : List QueuedAction)
      (h : s.phase = .running a) (hq : s.queue = a :: rest) :
      QueueStep s { s with pendingCommands := [], phase := .loopHead,
                           queue := failureRequeue a rest }
  /-- The settle delay elapses: the id is removed from `pendingCommands`,
  `processAction` returns true, the head is marked processed and shifted. -/
  | settleDone (s : QueueState) (a : QueuedAction) (rest : List QueuedAction)
      (h : s.phase = .settling a) (hq : s.queue = a :: rest) :
      QueueStep s { s with pendingCommands := [], phase := .loopHead, queue := rest }

/-- The states of an `ActionQueue` instance reachable from a fresh queue. -/
inductive QueueReachable : QueueState → Prop
  | init : QueueReachable initQueueState
  | step {s s' : QueueState} (hs : QueueReachable s) (h : QueueStep s s') :
      QueueReachable s'

/-- The queue's state invariant: a command is pending exactly while the loop
is inside `processAction` on a COMMAND action (so there is at most one), and
every recorded `CommandResult` stores the cleaned command of a COMMAND
action. -/
def QueueInv (s : QueueState) : Prop :=
  (∀ a, s.phase = QueuePhase.running a →
    a.type = ActionType.COMMAND ∧ s.pendingCommands = [a.id]) ∧
  (∀ a, s.phase = QueuePhase.settling a →
    a.type = ActionType.COMMAND ∧ s.pendingCommands = [a.id]) ∧
  ((s.phase = QueuePhase.idle ∨ s.phase = QueuePhase.loopHead) →
    s.pendingCommands = []) ∧
  (∀ r ∈ s.commandHistory, ∃ a ok out err,
    a.type = ActionType.COMMAND ∧ r = mkCmdResult a ok out err)

/-- The invariant holds in every reachable state of an `ActionQueue`. -/
theorem queueInv_holds {s : QueueState} (h : QueueReachable s) : QueueInv s := by
  induction h with
  | init =>
      refine ⟨?_, ?_, ?_, ?_⟩
      · intro a ha; cases ha
      · intro a ha; cases ha
      · intro _; rfl
      · intro r hr; simp [initQueueState] at hr
  | step hs hstep ih =>
      obtain ⟨i1, i2, i3, i4⟩ := ih
      cases hstep with
      | enqueue a hp hr => exact ⟨i1, i2, i3, i4⟩
      | startLoop h hq =>
          refine ⟨?_, ?_, ?_, ?_⟩
          · intro a ha; cases ha
          · intro a ha; cases ha
          · intro _; exact i3 (Or.inl h)
          · exact i4
      | exitLoop h hq =>
          refine ⟨?_, ?_, ?_, ?_⟩
          · intro a ha; cases ha
          · intro a ha; cases ha
          · intro _; exact i3 (Or.inr h)
          · exact i4
      | deferPending h hq hp => exact ⟨i1, i2, i3, i4⟩
      | skipMaxRetries a rest h hq hpend hr => exact ⟨i1, i2, i3, i4⟩
      | processSync a rest ok h hq hpend hr hp ht => exact ⟨i1, i2, i3, i4⟩
      | dispatchCommand a rest h hq hpend hr hp ht =>
          refine ⟨?_, ?_, ?_, ?_⟩
          · intro b hb
            cases hb
            exact ⟨ht, rfl⟩
          · intro b hb; cases hb
          · intro hb; rcases hb with hb | hb <;> cases hb
          · exact i4
      | commandReturn a ok out err h =>
          refine ⟨?_, ?_, ?_, ?_⟩
          · intro b hb; cases hb
          · intro b hb
            cases hb
            exact ⟨(i1 a h).1, (i1 a h).2⟩
          · intro hb; rcases hb with hb | hb <;> cases hb
          · intro r hr
            rcases List.mem_append.mp hr with hr' | hr'
            · exact i4 r hr'
            · simp at hr'
              exact ⟨a, ok, out, err, (i1 a h).1, hr'⟩
      | commandThrow a rest h hq =>
          refine ⟨?_, ?_, ?_, ?_⟩
          · intro b hb; cases hb
          · intro b hb; cases hb
          · intro _; rfl
          · exact i4
      | settleDone a rest h hq =>
          refine ⟨?_, ?_, ?_, ?_⟩
          · intro b hb; cases hb
          · intro b hb; cases hb
          · intro _; rfl
          · exact i4

/-- C2: in every reachable state of an `ActionQueue` instance, at most one
COMMAND action is pending (dispatched to `executeCommand` and not yet
completed); while one is pending the loop is inside `processAction` on that
very action — the dispatch loop defers any further head action until the
pending set empties, so it never starts a second COMMAND concurrently. -/
theorem C2_single_pending_command {s : QueueState} (h : QueueReachable s) :
    s.pendingCommands.length ≤ 1 ∧
    (∀ a, s.phase = QueuePhase.running a → s.pendingCommands = [a.id]) := by
  obtain ⟨i1, i2, i3, _⟩ := queueInv_holds h
  constructor
  · cases hp : s.phase with
    | idle => rw [i3 (Or.inl hp)]; decide
    | loopHead => rw [i3 (Or.inr hp)]; decide
    | running a => rw [(i1 a hp).2]; simp
    | settling a => rw [(i2 a hp).2]; simp
  · intro a ha
    exact (i1 a ha).2

/-- Witness for C2: the fresh queue state is reachable and satisfies the
bound. -/
theorem C2_single_pending_command_witness :
    initQueueState.pendingCommands.length ≤ 1 := by
  exact (C2_single_pending_command QueueReachable.init).1

/-- A freshly enqueued COMMAND action whose content carries surrounding
whitespace and an internal newline. -/
def cmdW : QueuedAction :=
  { type := ActionType.COMMAND, path := none, content := "  npm i\n\nreact  ".data,
    processed := false, retryCount := 0, id := 5 }

/-- C10: every `CommandResult` recorded in a reachable queue's history stores
the cleaned command of the COMMAND action it executed: trimmed, with internal
newline runs collapsed to one space, and de-duplicated when the text repeats
the same command — not the original action content (which the cleaning can
change, as the last conjunct shows on a concrete command). -/
theorem C10_history_records_cleaned_command :
    (∀ s, QueueReachable s → ∀ r ∈ s.commandHistory,
      ∃ a ok out err, a.type = ActionType.COMMAND ∧ r = mkCmdResult a ok out err ∧
        r.command = cleanCommand a.content) ∧
    cleanCommand "  npm i\n\nreact  ".data = "npm i react".data ∧
    cleanCommand "npm install react-domnpm install react-dom".data =
      "npm install react-dom".data ∧
    cleanCommand "  npm i\n\nreact  ".data ≠ "  npm i\n\nreact  ".data := by
  refine ⟨?_, by decide, by decide, by decide⟩
  intro s hs r hr
  obtain ⟨-, -, -, i4⟩ := queueInv_holds hs
  obtain ⟨a, ok, out, err, hty, heq⟩ := i4 r hr
  refine ⟨a, ok, out, err, hty, heq, ?_⟩
  rw [heq]
  rfl

/-- Witness for C10: a queue that enqueued `cmdW`, started its loop,
dispatched the command and saw `executeCommand` return, has recorded a
result whose `command` field is the cleaned command string. -/
theorem C10_history_records_cleaned_command_witness :
    ∃ a ok out err, a.type = ActionType.COMMAND ∧
      mkCmdResult cmdW true [] [] = mkCmdResult a ok out err ∧
      (mkCmdResult cmdW true [] []).command = cleanCommand a.content := by
  exact C10_history_records_cleaned_command.1 _
    (QueueReachable.step
      (QueueReachable.step
        (QueueReachable.step
          (QueueReachable.step QueueReachable.init
            (QueueStep.enqueue initQueueState cmdW rfl rfl))
          (QueueStep.startLoop _ rfl (by simp [initQueueState])))
        (QueueStep.dispatchCommand _ cmdW [] rfl rfl rfl (by decide) rfl rfl))
      (QueueStep.commandReturn _ cmdW true [] [] rfl))
    (mkCmdResult cmdW true [] []) (by simp [initQueueState])

/-! ## Path resolution (`resolveProjectPath`, src/utils/path-utils.ts)

`resolveProjectPath(projectDir, relativePath)` on the POSIX path module:
an absolute `relativePath` is accepted iff it `startsWith(projectDir)`
(a plain string-prefix test); a relative one is normalized
(`path.normalize`) and rejected iff the normalized string starts with
`".."`; accepted relative paths are joined under the project directory
(`path.join`).  `applyFileChange` first strips a leading run of
disallowed characters and trims the path. -/

/-- Split a path on `/` (raw segments, possibly empty). -/
def splitSlash : List Char → List (List Char)
  | [] => [[]]
  | c :: cs =>
      if c = '/' then [] :: splitSlash cs
      else match splitSlash cs with
        | [] => [[c]]
        | seg :: rest => (c :: seg) :: rest

/-- The effect of a `..` segment on the (reversed) segment stack: stack a
further `..` onto a `..` top, pop a plain top, and on an empty stack keep the
`..` only for relative paths (`allowUp`). -/
def popDD (allowUp : Bool) (stack : List (List Char)) : List (List Char) :=
  match stack with
  | top :: stack' =>
      if top = ['.', '.'] then ['.', '.'] :: top :: stack' else stack'
  | [] => if allowUp then [['.', '.']] else []

/-- Node's `normalizeString` segment resolution, producing the final segment
stack in reverse.  Empty and `.` segments are skipped; `..` applies
`popDD`; any other segment is pushed. -/
def normStackRev (allowUp : Bool) : List (List Char) → List (List Char) → List (List Char)
  | stack, [] => stack
  | stack, seg :: rest =>
      if seg = [] ∨ seg = ['.'] then normStackRev allowUp stack rest
      else if seg = ['.', '.'] then normStackRev allowUp (popDD allowUp stack) rest
      else normStackRev allowUp (seg :: stack) rest

/-- `path.posix.isAbsolute`. -/
def posixIsAbsolute (p : List Char) : Bool :=
  match p with
  | [] => false
  | c :: _ => c = '/'

/-- `intercalate` over `/`. -/
def joinSegs : List (List Char) → List Char
  | [] => []
  | [seg] => seg
  | seg :: rest => seg ++ '/' :: joinSegs rest

/-- The resolved segment list of a path (leading `..` segments survive only
on relative paths, as in Node's `normalizeString`). -/
def canonSegs (p : List Char) : List (List Char) :=
  (normStackRev (!posixIsAbsolute p) [] (splitSlash p)).reverse

/-- `path.posix.normalize`. -/
def posixNormalize (p : List Char) : List Char :=
  if p = [] then ['.']
  else
    let isAbs := posixIsAbsolute p
    let trail := p.getLast? = some '/'
    let body := joinSegs (canonSegs p)
    if body = [] then
      if isAbs then ['/'] else if trail then ['.', '/'] else ['.']
    else
      let body' := if trail then body ++ ['/'] else body
      if isAbs then '/' :: body' else body'

/-- `path.posix.join` of two parts (as called by `resolveProjectPath`:
both parts nonempty in practice; empty parts are skipped as in Node). -/
def posixJoin (a b : List Char) : List Char :=
  if a = [] then (if b = [] then ['.'] else posixNormalize b)
  else if b = [] then posixNormalize a
  else posixNormalize (a ++ '/' :: b)

/-- The two rejection reasons of `resolveProjectPath`. -/
inductive PathError
  /-- "Security violation: Path ... is outside project directory ...". -/
  | outsideProject
  /-- "Security violation: Path ... attempts to access parent directories". -/
  | parentEscape
  deriving Repr, DecidableEq

/-- `resolveProjectPath` (src/utils/path-utils.ts lines 20-39): thrown
`Error`s become `Except.error`. -/
def resolveProjectPath (projectDir relativePath : List Char) :
    Except PathError (List Char) :=
  if posixIsAbsolute relativePath then
    if isLitAt projectDir relativePath then Except.ok relativePath
    else Except.error PathError.outsideProject
  else
    let normalizedPath := posixNormalize relativePath
    if isLitAt ['.', '.'] normalizedPath then Except.error PathError.parentEscape
    else Except.ok (posixJoin projectDir normalizedPath)

/-- The character class kept by `applyFileChange`'s path clean-up regex
`/^[^a-zA-Z0-9\/._-]+/`. -/
def isPathCls (c : Char) : Bool :=
  ('a' ≤ c && c ≤ 'z') || ('A' ≤ c && c ≤ 'Z') || ('0' ≤ c && c ≤ '9') ||
  c == '/' || c == '.' || c == '_' || c == '-'

/-- The path preprocessing of `applyFileChange`
(src/services/file-operation-service.ts line 349):
`filePath.replace(/^[^a-zA-Z0-9\/._-]+/, '').trim()`. -/
def cleanFilePath (p : List Char) : List Char :=
  jsTrim (p.dropWhile (fun c => !isPathCls c))

/-- The path validation performed by `applyFileChange` before any filesystem
access: clean the raw path, then resolve it against the project directory. -/
def applyFileChangePathCheck (projectDir filePath : List Char) :
    Except PathError (List Char) :=
  resolveProjectPath projectDir (cleanFilePath filePath)

/-- String-level containment: `p` is the directory itself or lies below it. -/
def insideStr (dir p : List Char) : Bool :=
  p == dir || isLitAt (dir ++ ['/']) p

/-- Equality of `Except` results is decidable componentwise. -/
instance exceptDecEq {ε α : Type} [DecidableEq ε] [DecidableEq α] :
    DecidableEq (Except ε α)
  | Except.ok a, Except.ok b =>
      if h : a = b then Decidable.isTrue (by rw [h])
      else Decidable.isFalse (by intro he; cases he; exact h rfl)
  | Except.ok _, Except.error _ => Decidable.isFalse (by intro he; cases he)
  | Except.error _, Except.ok _ => Decidable.isFalse (by intro he; cases he)
  | Except.error e, Except.error f =>
      if h : e = f then Decidable.isTrue (by rw [h])
      else Decidable.isFalse (by intro he; cases he; exact h rfl)

example : resolveProjectPath "/p1".data "../../etc/passwd".data =
    Except.error PathError.parentEscape := by decide

example : resolveProjectPath "/p1".data "a/b.txt".data =
    Except.ok "/p1/a/b.txt".data := by decide

example : resolveProjectPath "/p1".data "/p1evil/x".data =
    Except.ok "/p1evil/x".data := by decide

/-- The `..` segment. -/
abbrev ddSeg : List Char := ['.', '.']

/-- A segment that `normalizeString` neither skips nor treats specially. -/
def keepSeg (s : List Char) : Bool :=
  if s = [] ∨ s = ['.'] then false else true

/-- A literal is a prefix of itself followed by anything. -/
theorem isLitAt_self_append (p t : List Char) : isLitAt p (p ++ t) = true := by
  induction p with
  | nil => rfl
  | cons c cs ih => simp [isLitAt, ih]

/-- A literal is a prefix of itself. -/
theorem isLitAt_refl (p : List Char) : isLitAt p p = true := by
  have h := isLitAt_self_append p []
  simpa using h

/-- `splitSlash` always produces at least one segment. -/
theorem splitSlash_ne_nil (p : List Char) : splitSlash p ≠ [] := by
  cases p with
  | nil => simp [splitSlash]
  | cons c cs =>
      simp only [splitSlash]
      split_ifs
      · simp
      · cases h : splitSlash cs <;> simp

/-- Splitting distributes over a `/`-separated concatenation. -/
theorem splitSlash_append (a b : List Char) :
    splitSlash (a ++ '/' :: b) = splitSlash a ++ splitSlash b := by
  induction a with
  | nil => simp [splitSlash]
  | cons c cs ih =>
      by_cases hc : c = '/'
      · subst hc
        simp only [List.cons_append, splitSlash, if_pos rfl, List.append_eq, ih]
        rfl
      · simp only [List.cons_append, splitSlash, if_neg hc, List.append_eq, ih]
        cases h : splitSlash cs with
        | nil => exact absurd h (splitSlash_ne_nil cs)
        | cons s rest => simp [h]

/-- Segments produced by `splitSlash` contain no `/`. -/
theorem splitSlash_no_slash (p : List Char) : ∀ s ∈ splitSlash p, '/' ∉ s := by
  induction p with
  | nil => intro s hs; simp [splitSlash] at hs; simp [hs]
  | cons c cs ih =>
      intro s hs
      simp only [splitSlash] at hs
      split_ifs at hs with hc
      · rcases List.mem_cons.mp hs with rfl | hs'
        · simp
        · exact ih s hs'
      · cases h : splitSlash cs with
        | nil => exact absurd h (splitSlash_ne_nil cs)
        | cons t rest =>
            rw [h] at hs
            rcases List.mem_cons.mp hs with rfl | hs'
            · intro hmem
              rcases List.mem_cons.mp hmem with rfl | hmem'
              · exact hc rfl
              · exact ih t (h ▸ List.mem_cons_self t rest) hmem'
            · exact ih s (h ▸ List.mem_cons_of_mem t hs')

/-- A slash-free string is a single segment. -/
theorem splitSlash_of_no_slash (s : List Char) (h : '/' ∉ s) : splitSlash s = [s] := by
  induction s with
  | nil => rfl
  | cons c cs ih =>
      have hc : ¬(c = '/') := fun hc => h (hc ▸ List.mem_cons_self c cs)
      have hcs : '/' ∉ cs := fun hm => h (List.mem_cons_of_mem c hm)
      simp only [splitSlash, if_neg hc, ih hcs]

/-- `joinSegs` of an append (both halves nonempty). -/
theorem joinSegs_append (A B : List (List Char)) (hA : A ≠ []) (hB : B ≠ []) :
    joinSegs (A ++ B) = joinSegs A ++ '/' :: joinSegs B := by
  induction A with
  | nil => exact absurd rfl hA
  | cons a A' ih =>
      cases A' with
      | nil =>
          cases B with
          | nil => exact absurd rfl hB
          | cons b B' => simp [joinSegs]
      | cons a' A'' =>
          have h' := ih (by simp)
          simp only [List.cons_append, joinSegs, List.append_eq] at h' ⊢
          rw [h']
          simp

/-- `splitSlash` inverts `joinSegs` on slash-free segments. -/
theorem splitSlash_joinSegs (segs : List (List Char)) (hne : segs ≠ [])
    (h : ∀ s ∈ segs, '/' ∉ s) : splitSlash (joinSegs segs) = segs := by
  induction segs with
  | nil => exact absurd rfl hne
  | cons s rest ih =>
      cases rest with
      | nil => exact splitSlash_of_no_slash s (h s (List.mem_cons_self s []))
      | cons t rest' =>
          have hj : joinSegs (s :: t :: rest') = s ++ '/' :: joinSegs (t :: rest') := rfl
          rw [hj, splitSlash_append,
            splitSlash_of_no_slash s (h s (List.mem_cons_self s _)),
            ih (by simp) (fun x hx => h x (List.mem_cons_of_mem s hx))]
          rfl

/-- Processing a concatenated segment list is processing in sequence. -/
theorem normStackRev_append (u : Bool) (l₁ l₂ : List (List Char)) :
    ∀ st, normStackRev u st (l₁ ++ l₂) = normStackRev u (normStackRev u st l₁) l₂ := by
  induction l₁ with
  | nil => intro st; rfl
  | cons seg rest ih =>
      intro st
      simp only [List.cons_append, normStackRev]
      split_ifs with h1 h2
      · exact ih st
      · exact ih (popDD u st)
      · exact ih (seg :: st)

/-- Segments that are neither skipped nor `..` are simply pushed. -/
theorem normStackRev_plain (u : Bool) (l : List (List Char))
    (h : ∀ s ∈ l, s ≠ ddSeg) :
    ∀ st, normStackRev u st l = (l.filter keepSeg).reverse ++ st := by
  induction l with
  | nil => intro st; rfl
  | cons seg rest ih =>
      intro st
      have hseg : seg ≠ ddSeg := h seg (List.mem_cons_self seg rest)
      have hrest : ∀ s ∈ rest, s ≠ ddSeg := fun s hs => h s (List.mem_cons_of_mem seg hs)
      simp only [normStackRev]
      split_ifs with h1
      · rw [ih hrest st, List.filter_cons]
        have hk : keepSeg seg = false := by simp [keepSeg, h1]
        simp [hk]
      · rw [ih hrest (seg :: st), List.filter_cons]
        have hk : keepSeg seg = true := by simp [keepSeg, h1]
        simp [hk]

/-- Every element of the processed stack either was on the initial stack or
is a processed input segment: nonempty, not `.`, and drawn from the input. -/
theorem normStackRev_mem (u : Bool) (l : List (List Char)) :
    ∀ st x, x ∈ normStackRev u st l →
      x ∈ st ∨ (x ∈ l ∧ x ≠ [] ∧ x ≠ ['.']) := by
  induction l with
  | nil => intro st x hx; exact Or.inl hx
  | cons seg rest ih =>
      intro st x hx
      simp only [normStackRev] at hx
      split_ifs at hx with h1 h2
      · rcases ih st x hx with h | ⟨hm, he, hd⟩
        · exact Or.inl h
        · exact Or.inr ⟨List.mem_cons_of_mem seg hm, he, hd⟩
      · rcases ih (popDD u st) x hx with h | ⟨hm, he, hd⟩
        · cases st with
          | nil =>
              simp only [popDD] at h
              split_ifs at h
              · simp at h
                subst h
                exact Or.inr ⟨by simp [h2], by simp, by simp⟩
              · simp at h
          | cons top st' =>
              simp only [popDD] at h
              split_ifs at h with htop
              · rcases List.mem_cons.mp h with rfl | h'
                · exact Or.inr ⟨by simp [h2], by simp, by simp⟩
                · exact Or.inl h'
              · exact Or.inl (List.mem_cons_of_mem top h)
        · exact Or.inr ⟨List.mem_cons_of_mem seg hm, he, hd⟩
      · rcases ih (seg :: st) x hx with h | ⟨hm, he, hd⟩
        · rcases List.mem_cons.mp h with rfl | h'
          · refine Or.inr ⟨List.mem_cons_self x rest, ?_, ?_⟩
            · intro he; exact h1 (Or.inl he)
            · intro hd; exact h1 (Or.inr hd)
          · exact Or.inl h'
        · exact Or.inr ⟨List.mem_cons_of_mem seg hm, he, hd⟩

/-- Stack shape invariant: all `..` entries sit at the bottom of the
(reversed) stack. -/
def DDBottom (st : List (List Char)) : Prop :=
  ∃ plain dots, st = plain ++ dots ∧ (∀ x ∈ plain, x ≠ ddSeg) ∧ ∀ x ∈ dots, x = ddSeg

/-- `popDD` preserves the shape. -/
theorem popDD_ddBottom (u : Bool) (st : List (List Char)) (h : DDBottom st) :
    DDBottom (popDD u st) := by
  obtain ⟨plain, dots, rfl, hp, hd⟩ := h
  cases plain with
  | nil =>
      cases dots with
      | nil =>
          simp only [popDD, List.nil_append]
          split_ifs
          · exact ⟨[], [ddSeg], rfl, by simp, by simp⟩
          · exact ⟨[], [], rfl, by simp, by simp⟩
      | cons d dots' =>
          have hdd : d = ddSeg := hd d (List.mem_cons_self d dots')
          subst hdd
          simp only [popDD, List.nil_append, if_pos rfl]
          exact ⟨[], ddSeg :: ddSeg :: dots', rfl, by simp,
            fun x hx => by
              rcases List.mem_cons.mp hx with rfl | hx'
              · rfl
              · rcases List.mem_cons.mp hx' with rfl | hx''
                · rfl
                · exact hd x (List.mem_cons_of_mem ddSeg hx'')⟩
  | cons p plain' =>
      have hpd : p ≠ ddSeg := hp p (List.mem_cons_self p plain')
      simp only [List.cons_append, popDD, if_neg hpd]
      exact ⟨plain', dots, rfl, fun x hx => hp x (List.mem_cons_of_mem p hx), hd⟩

/-- Processing preserves the bottom-`..` shape. -/
theorem normStackRev_ddBottom (u : Bool) (l : List (List Char)) :
    ∀ st, DDBottom st → DDBottom (normStackRev u st l) := by
  induction l with
  | nil => intro st h; exact h
  | cons seg rest ih =>
      intro st h
      simp only [normStackRev]
      split_ifs with h1 h2
      · exact ih st h
      · exact ih (popDD u st) (popDD_ddBottom u st h)
      · refine ih (seg :: st) ?_
        obtain ⟨plain, dots, rfl, hp, hd⟩ := h
        refine ⟨seg :: plain, dots, rfl, ?_, hd⟩
        intro x hx
        rcases List.mem_cons.mp hx with rfl | hx'
        · exact h2
        · exact hp x hx'

/-- Canonical segments are nonempty, not `.`, and slash-free. -/
theorem canonSegs_elems (p : List Char) :
    ∀ x ∈ canonSegs p, x ≠ [] ∧ x ≠ ['.'] ∧ '/' ∉ x := by
  intro x hx
  simp only [canonSegs, List.mem_reverse] at hx
  rcases normStackRev_mem _ _ [] x hx with h | ⟨hm, he, hd⟩
  · simp at h
  · exact ⟨he, hd, splitSlash_no_slash p x hm⟩

/-- If a relative path's normalized form does not start with `..`, its
canonical segments contain no `..` at all: normalization floats every
surviving `..` to the front. -/
theorem canonSegs_no_dd (p : List Char) (habs : posixIsAbsolute p = false)
    (hacc : isLitAt ddSeg (posixNormalize p) = false) :
    ∀ x ∈ canonSegs p, x ≠ ddSeg := by
  have hshape : DDBottom (normStackRev (!posixIsAbsolute p) [] (splitSlash p)) :=
    normStackRev_ddBottom _ _ [] ⟨[], [], rfl, by simp, by simp⟩
  obtain ⟨plain, dots, hst, hplain, hdots⟩ := hshape
  have hcs : canonSegs p = dots.reverse ++ plain.reverse := by
    simp [canonSegs, hst]
  cases hdots' : dots with
  | nil =>
      intro x hx
      rw [hcs, hdots'] at hx
      simp at hx
      exact hplain x (List.mem_reverse.mp (by simpa using hx))
  | cons d dots' =>
      exfalso
      -- the normalized string then starts with "..", contradicting hacc
      have hd : d = ddSeg := hdots d (hdots' ▸ List.mem_cons_self d dots')
      have hhead : ∃ t, canonSegs p = ddSeg :: t := by
        rw [hcs, hdots']
        cases hrev : (d :: dots').reverse with
        | nil => exact absurd hrev (by simp)
        | cons e t =>
            have he : e = ddSeg := by
              have : e ∈ (d :: dots').reverse := hrev ▸ List.mem_cons_self e t
              exact hdots e (hdots' ▸ List.mem_reverse.mp this)
            exact ⟨t ++ plain.reverse, by rw [he]; simp⟩
      obtain ⟨t, hh⟩ := hhead
      have hp0 : p ≠ [] := by
        intro hp
        rw [hp] at hh
        simp [canonSegs, splitSlash, normStackRev] at hh
      have hbody : ∃ r, joinSegs (canonSegs p) = '.' :: '.' :: r := by
        rw [hh]
        cases t with
        | nil => exact ⟨[], rfl⟩
        | cons u v => exact ⟨'/' :: joinSegs (u :: v), rfl⟩
      obtain ⟨r, hb⟩ := hbody
      rw [posixNormalize, if_neg hp0] at hacc
      simp only [habs, hb] at hacc
      revert hacc
      split_ifs <;> simp_all [isLitAt]

/-- `joinSegs` of nonempty segments is nonempty. -/
theorem joinSegs_ne_nil (segs : List (List Char)) (hne : segs ≠ [])
    (h : ∀ s ∈ segs, s ≠ []) : joinSegs segs ≠ [] := by
  cases segs with
  | nil => exact absurd rfl hne
  | cons s rest =>
      cases rest with
      | nil => exact h s (List.mem_cons_self s [])
      | cons t rest' =>
          show s ++ '/' :: joinSegs (t :: rest') ≠ []
          simp

/-- `joinSegs` of nonempty slash-free segments does not end in `/`. -/
theorem joinSegs_getLast (segs : List (List Char)) (hne : segs ≠ [])
    (h : ∀ s ∈ segs, s ≠ [] ∧ '/' ∉ s) : (joinSegs segs).getLast? ≠ some '/' := by
  induction segs with
  | nil => exact absurd rfl hne
  | cons s rest ih =>
      cases rest with
      | nil =>
          obtain ⟨hs, hsl⟩ := h s (List.mem_cons_self s [])
          show s.getLast? ≠ some '/'
          intro hlast
          cases s with
          | nil => exact hs rfl
          | cons c cs =>
              have hne' : c :: cs ≠ [] := by simp
              rw [List.getLast?_eq_getLast_of_ne_nil hne'] at hlast
              have heq : (c :: cs).getLast hne' = '/' := Option.some.inj hlast
              have hmem := List.getLast_mem hne'
              rw [heq] at hmem
              exact hsl hmem
      | cons t rest' =>
          have hj : joinSegs (s :: t :: rest') = s ++ '/' :: joinSegs (t :: rest') := rfl
          rw [hj, List.getLast?_append_of_ne_nil s (by simp)]
          have h' : ∀ x ∈ t :: rest', x ≠ [] ∧ '/' ∉ x :=
            fun x hx => h x (List.mem_cons_of_mem s hx)
          have hjoin_ne : joinSegs (t :: rest') ≠ [] :=
            joinSegs_ne_nil _ (by simp) (fun x hx => (h' x hx).1)
          have := ih (by simp) h'
          cases hg : joinSegs (t :: rest') with
          | nil => exact absurd hg hjoin_ne
          | cons c cs =>
              rw [hg] at this
              simpa using this

/-- Well-formedness of a project directory as used by the system: an
absolute, already-normal path with no trailing slash, not the root. -/
def DirWF (dir : List Char) : Prop :=
  posixIsAbsolute dir = true ∧ posixNormalize dir = dir ∧
  ¬dir.getLast? = some '/' ∧ canonSegs dir ≠ []

/-- A well-formed directory is `'/'` followed by its joined canonical
segments. -/
theorem dirWF_eq (dir : List Char) (h : DirWF dir) :
    dir = '/' :: joinSegs (canonSegs dir) := by
  obtain ⟨habs, hnorm, htrail, hne⟩ := h
  have hd0 : dir ≠ [] := by
    intro hd
    rw [hd] at habs
    simp [posixIsAbsolute] at habs
  have hbody : joinSegs (canonSegs dir) ≠ [] :=
    joinSegs_ne_nil _ hne (fun s hs => (canonSegs_elems dir s hs).1)
  conv_lhs => rw [← hnorm]
  rw [posixNormalize, if_neg hd0]
  simp [habs, eq_false htrail, hbody]

/-- Evaluation of `posixNormalize` on a nonempty absolute path with
surviving segments. -/
theorem posixNormalize_abs_eval (q : List Char) (hq : q ≠ [])
    (habs : posixIsAbsolute q = true) (hbody : joinSegs (canonSegs q) ≠ []) :
    posixNormalize q = '/' ::
      (if q.getLast? = some '/' then joinSegs (canonSegs q) ++ ['/']
       else joinSegs (canonSegs q)) := by
  rw [posixNormalize, if_neg hq]
  simp [habs, hbody]

/-- Evaluation of `posixNormalize` on a nonempty relative path with
surviving segments. -/
theorem posixNormalize_rel_eval (q : List Char) (hq : q ≠ [])
    (habs : posixIsAbsolute q = false) (hbody : joinSegs (canonSegs q) ≠ []) :
    posixNormalize q =
      (if q.getLast? = some '/' then joinSegs (canonSegs q) ++ ['/']
       else joinSegs (canonSegs q)) := by
  rw [posixNormalize, if_neg hq]
  simp [habs, hbody]

/-- A relative path with no surviving segments normalizes to `.` or `./`. -/
theorem posixNormalize_rel_empty (q : List Char)
    (habs : posixIsAbsolute q = false) (hbody : joinSegs (canonSegs q) = []) :
    posixNormalize q = ['.'] ∨ posixNormalize q = ['.', '/'] := by
  by_cases hq : q = []
  · left; rw [hq]; rfl
  · rw [posixNormalize, if_neg hq]
    simp only [habs, hbody, if_pos rfl, Bool.false_eq_true, if_false]
    split_ifs <;> simp

/-- The canonical segments of `dir ++ '/' :: n` when `dir` is absolute: the
segments of `n` are processed on top of `dir`'s stack. -/
theorem canonSegs_join (dir n : List Char) (_habs : posixIsAbsolute dir = true)
    (hdir0 : dir = '/' :: dir.tail) :
    canonSegs (dir ++ '/' :: n) =
      (normStackRev false (normStackRev false [] (splitSlash dir)) (splitSlash n)).reverse := by
  have habs' : posixIsAbsolute (dir ++ '/' :: n) = true := by
    rw [hdir0]
    simp [posixIsAbsolute]
  rw [canonSegs, habs', splitSlash_append, normStackRev_append]
  rfl

/-- Joining a well-formed project directory with an accepted (relative,
non-climbing) normalized path lands inside the directory. -/
theorem posixJoin_inside (dir p : List Char) (hdir : DirWF dir)
    (habs : posixIsAbsolute p = false)
    (hacc : isLitAt ddSeg (posixNormalize p) = false) :
    insideStr dir (posixJoin dir (posixNormalize p)) = true := by
  obtain ⟨hdabs, hdnorm, hdtrail, hdne⟩ := hdir
  have hdir0 : dir = '/' :: dir.tail := by
    cases hd : dir with
    | nil => rw [hd] at hdabs; simp [posixIsAbsolute] at hdabs
    | cons c cs =>
        rw [hd] at hdabs
        simp only [posixIsAbsolute, decide_eq_true_eq] at hdabs
        simp [hdabs]
  have hdir_ne : dir ≠ [] := by rw [hdir0]; simp
  have hBd : joinSegs (canonSegs dir) ≠ [] :=
    joinSegs_ne_nil _ hdne (fun s hs => (canonSegs_elems dir s hs).1)
  have hdir_eq : dir = '/' :: joinSegs (canonSegs dir) :=
    dirWF_eq dir ⟨hdabs, hdnorm, hdtrail, hdne⟩
  have hSD : canonSegs dir =
      (normStackRev false [] (splitSlash dir)).reverse := by
    rw [canonSegs, hdabs]
    rfl
  set n := posixNormalize p with hn
  have hn_ne : n ≠ [] := by
    rcases hns : canonSegs p with - | ⟨s0, cs0⟩
    · have hbody0 : joinSegs (canonSegs p) = [] := by rw [hns]; rfl
      rcases posixNormalize_rel_empty p habs hbody0 with h | h <;>
        · rw [hn, h]; simp
    · have hbody : joinSegs (canonSegs p) ≠ [] := by
        rw [hns]
        exact joinSegs_ne_nil _ (by simp)
          (fun s hs => (canonSegs_elems p s (hns ▸ hs)).1)
      have hq : p ≠ [] := by
        intro hp
        rw [hp] at hns
        simp [canonSegs, splitSlash, normStackRev] at hns
      rw [hn, posixNormalize_rel_eval p hq habs hbody]
      split_ifs <;> simp [hbody]
  have hjoin : posixJoin dir n = posixNormalize (dir ++ '/' :: n) := by
    rw [posixJoin, if_neg hdir_ne, if_neg hn_ne]
  have habs_join : posixIsAbsolute (dir ++ '/' :: n) = true := by
    rw [hdir0]; simp [posixIsAbsolute]
  have hjoined_ne : dir ++ '/' :: n ≠ [] := by simp
  have htrail_join : ((dir ++ '/' :: n).getLast? = some '/') = (n.getLast? = some '/') := by
    rw [List.getLast?_append_of_ne_nil dir (by simp)]
    have : ('/' :: n) = ['/'] ++ n := rfl
    rw [this, List.getLast?_append_of_ne_nil ['/'] hn_ne]
  rcases hns : canonSegs p with - | ⟨s0, cs0⟩
  -- Case A: the path normalizes to `.` or `./`
  · have hbody0 : joinSegs (canonSegs p) = [] := by rw [hns]; rfl
    have hsplit_n : ∀ s ∈ splitSlash n, s = [] ∨ s = ['.'] := by
      rcases posixNormalize_rel_empty p habs hbody0 with h | h <;>
        · rw [hn, h]
          decide
    have hstack : normStackRev false (normStackRev false [] (splitSlash dir))
        (splitSlash n) = normStackRev false [] (splitSlash dir) := by
      have : ∀ s ∈ splitSlash n, s ≠ ddSeg := by
        intro s hs
        rcases hsplit_n s hs with rfl | rfl <;> simp
      rw [normStackRev_plain false _ this (normStackRev false [] (splitSlash dir))]
      have hfil : (splitSlash n).filter keepSeg = [] := by
        rw [List.filter_eq_nil_iff]
        intro s hs
        rcases hsplit_n s hs with rfl | rfl <;> simp [keepSeg]
      rw [hfil]
      rfl
    have hcanon : canonSegs (dir ++ '/' :: n) = canonSegs dir := by
      rw [canonSegs_join dir n hdabs hdir0, hstack, ← hSD]
    have hres := posixNormalize_abs_eval (dir ++ '/' :: n) hjoined_ne habs_join
      (by rw [hcanon]; exact hBd)
    rw [hjoin, hres, hcanon]
    simp only [htrail_join]
    rcases posixNormalize_rel_empty p habs hbody0 with h | h
    · rw [hn, h]
      simp only [List.getLast?_singleton]
      rw [if_neg (by decide)]
      rw [← hdir_eq]
      simp [insideStr]
    · rw [hn, h]
      rw [if_pos (by decide)]
      have : ('/' : Char) :: (joinSegs (canonSegs dir) ++ ['/']) = dir ++ ['/'] := by
        conv_rhs => rw [hdir_eq]
        rfl
      rw [this]
      simp [insideStr, isLitAt_refl]
  -- Case B: the path normalizes to its joined segments
  · have hCSne : canonSegs p ≠ [] := by rw [hns]; simp
    have hCSel : ∀ s ∈ canonSegs p, s ≠ [] ∧ s ≠ ['.'] ∧ '/' ∉ s := canonSegs_elems p
    have hCSdd : ∀ s ∈ canonSegs p, s ≠ ddSeg := canonSegs_no_dd p habs hacc
    have hbody : joinSegs (canonSegs p) ≠ [] :=
      joinSegs_ne_nil _ hCSne (fun s hs => (hCSel s hs).1)
    have hq : p ≠ [] := by
      intro hp
      rw [hp] at hns
      simp [canonSegs, splitSlash, normStackRev] at hns
    have hneval := posixNormalize_rel_eval p hq habs hbody
    have hsplit_body : splitSlash (joinSegs (canonSegs p)) = canonSegs p :=
      splitSlash_joinSegs _ hCSne (fun s hs => (hCSel s hs).2.2)
    have hstack : ∀ tail, (∀ s ∈ tail, s = [] ∨ s = ['.']) →
        normStackRev false (normStackRev false [] (splitSlash dir))
          (canonSegs p ++ tail) =
        (canonSegs p).reverse ++ normStackRev false [] (splitSlash dir) := by
      intro tail htail
      have hplainseg : ∀ s ∈ canonSegs p ++ tail, s ≠ ddSeg := by
        intro s hs
        rcases List.mem_append.mp hs with hs' | hs'
        · exact hCSdd s hs'
        · rcases htail s hs' with rfl | rfl <;> simp
      rw [normStackRev_plain false _ hplainseg (normStackRev false [] (splitSlash dir))]
      have hfil : (canonSegs p ++ tail).filter keepSeg = canonSegs p := by
        rw [List.filter_append]
        have h1 : (canonSegs p).filter keepSeg = canonSegs p :=
          List.filter_eq_self.mpr (fun s hs => by
            obtain ⟨h1, h2, -⟩ := hCSel s hs
            simp [keepSeg, h1, h2])
        have h2 : tail.filter keepSeg = [] := by
          rw [List.filter_eq_nil_iff]
          intro s hs
          rcases htail s hs with rfl | rfl <;> simp [keepSeg]
        rw [h1, h2, List.append_nil]
      rw [hfil]
    have hBd_join : joinSegs (canonSegs dir ++ canonSegs p) =
        joinSegs (canonSegs dir) ++ '/' :: joinSegs (canonSegs p) :=
      joinSegs_append _ _ hdne hCSne
    by_cases htr : p.getLast? = some '/'
    -- B2: trailing slash preserved
    · have hnval : n = joinSegs (canonSegs p) ++ ['/'] := by
        rw [hn, hneval, if_pos htr]
      have hsplit_n : splitSlash n = canonSegs p ++ [[]] := by
        have : n = joinSegs (canonSegs p) ++ '/' :: [] := by rw [hnval]
        rw [this, splitSlash_append, hsplit_body]
        rfl
      have hcanon : canonSegs (dir ++ '/' :: n) = canonSegs dir ++ canonSegs p := by
        rw [canonSegs_join dir n hdabs hdir0, hsplit_n, hstack [[]] (by simp),
          List.reverse_append, List.reverse_reverse, ← hSD]
      have hres := posixNormalize_abs_eval (dir ++ '/' :: n) hjoined_ne habs_join
        (by rw [hcanon, hBd_join]; simp)
      rw [hjoin, hres, hcanon]
      simp only [htrail_join]
      rw [hnval]
      rw [if_pos (by simp), hBd_join]
      have hshape : ('/' : Char) ::
          (joinSegs (canonSegs dir) ++ '/' :: joinSegs (canonSegs p) ++ ['/']) =
          (dir ++ ['/']) ++ (joinSegs (canonSegs p) ++ ['/']) := by
        conv_rhs => rw [hdir_eq]
        simp
      rw [hshape]
      simp only [insideStr, Bool.or_eq_true]
      exact Or.inr (isLitAt_self_append (dir ++ ['/']) (joinSegs (canonSegs p) ++ ['/']))

    -- B1: no trailing slash
    · have hnval : n = joinSegs (canonSegs p) := by
        rw [hn, hneval, if_neg htr]
      have hcanon : canonSegs (dir ++ '/' :: n) = canonSegs dir ++ canonSegs p := by
        rw [canonSegs_join dir n hdabs hdir0, hnval, hsplit_body]
        have h' := hstack [] (by simp)
        rw [List.append_nil] at h'
        rw [h', List.reverse_append, List.reverse_reverse, ← hSD]
      have hres := posixNormalize_abs_eval (dir ++ '/' :: n) hjoined_ne habs_join
        (by rw [hcanon, hBd_join]; simp)
      rw [hjoin, hres, hcanon]
      simp only [htrail_join]
      rw [hnval]
      rw [if_neg (joinSegs_getLast _ hCSne (fun s hs => ⟨(hCSel s hs).1, (hCSel s hs).2.2⟩)),
        hBd_join]
      have hshape : ('/' : Char) ::
          (joinSegs (canonSegs dir) ++ '/' :: joinSegs (canonSegs p)) =
          (dir ++ ['/']) ++ joinSegs (canonSegs p) := by
        conv_rhs => rw [hdir_eq]
        simp
      rw [hshape]
      simp only [insideStr, Bool.or_eq_true]
      exact Or.inr (isLitAt_self_append (dir ++ ['/']) (joinSegs (canonSegs p)))


/-- C6: counterexample. The spec says absolute paths are rejected and every
accepted path stays inside the project directory, but `resolveProjectPath`
accepts an absolute path whenever it merely starts with the project directory
STRING: with project directory `/p1`, the absolute path `/p1evil/x` is
accepted although it is not inside `/p1`. -/
theorem C6_counterexample :
    posixIsAbsolute ("/p1evil/x").data = true ∧
    resolveProjectPath ("/p1").data ("/p1evil/x").data =
      Except.ok ("/p1evil/x").data ∧
    insideStr ("/p1").data ("/p1evil/x").data = false := by
  decide

/-- C6 (amended): `resolveProjectPath` accepts an absolute path iff the
project directory string is a character-prefix of it (otherwise it errors
with `outsideProject`); a relative path whose normalization starts with `..`
is rejected with `parentEscape`; any other relative path is accepted and the
resolved path `posixJoin dir (posixNormalize p)` lies inside a well-formed
project directory; in particular `../../etc/passwd` is rejected by
`applyFileChange`'s path check. -/
theorem C6_path_validation (dir p : List Char) :
    (posixIsAbsolute p = true →
      resolveProjectPath dir p =
        (if isLitAt dir p then Except.ok p
         else Except.error PathError.outsideProject)) ∧
    (posixIsAbsolute p = false → isLitAt ddSeg (posixNormalize p) = true →
      resolveProjectPath dir p = Except.error PathError.parentEscape) ∧
    (DirWF dir → posixIsAbsolute p = false →
      isLitAt ddSeg (posixNormalize p) = false →
      resolveProjectPath dir p = Except.ok (posixJoin dir (posixNormalize p)) ∧
      insideStr dir (posixJoin dir (posixNormalize p)) = true) ∧
    applyFileChangePathCheck ("/p1").data ("../../etc/passwd").data =
      Except.error PathError.parentEscape := by
  refine ⟨?_, ?_, ?_, by decide⟩
  · intro habs
    rw [resolveProjectPath, if_pos habs]
  · intro habs hdd
    rw [resolveProjectPath, if_neg (by simp [habs])]
    simp [hdd]
  · intro hdir habs hdd
    constructor
    · rw [resolveProjectPath, if_neg (by simp [habs])]
      simp only [hdd, Bool.false_eq_true, if_false]
    · exact posixJoin_inside dir p hdir habs hdd

/-- C6 witness: the amended theorem applied at the project directory `/p1`
and the relative path `a/b.txt`, whose hypotheses are discharged by
evaluation. -/
theorem C6_path_validation_witness :
    DirWF ("/p1").data ∧
    posixIsAbsolute ("a/b.txt").data = false ∧
    isLitAt ddSeg (posixNormalize ("a/b.txt").data) = false ∧
    (resolveProjectPath ("/p1").data ("a/b.txt").data =
        Except.ok (posixJoin ("/p1").data (posixNormalize ("a/b.txt").data)) ∧
      insideStr ("/p1").data
        (posixJoin ("/p1").data (posixNormalize ("a/b.txt").data)) = true) := by
  have hwf : DirWF ("/p1").data := ⟨by decide, by decide, by decide, by decide⟩
  refine ⟨hwf, by decide, by decide, ?_⟩
  exact (C6_path_validation ("/p1").data ("a/b.txt").data).2.2.1
    hwf (by decide) (by decide)

/-! ### File mutator effects (C7) -/

/-- `path.posix.dirname` (Node `path` module, `posix.dirname`): scan from the
end skipping trailing slashes, cut at the next slash; a rootless path with no
slash gives `.`, a rooted one gives `/`. -/
def posixDirname (p : List Char) : List Char :=
  match p with
  | [] => ['.']
  | c0 :: rest =>
    let rr1 := rest.reverse.dropWhile (fun c => c == '/')
    let rr2 := rr1.dropWhile (fun c => !(c == '/'))
    match rr2 with
    | [] => if c0 == '/' then ['/'] else ['.']
    | _ :: tl =>
      if c0 == '/' && tl.isEmpty then ['/', '/'] else c0 :: tl.reverse

/-- Filesystem calls issued by `applyFileChange` and the path-utils helpers:
`fs.ensureDir` (on the file's directory), `fs.writeFile` (inside
`writeProjectFileAsync`) and `fs.unlink` (inside `deleteProjectFileAsync`). -/
inductive FsOp
  | ensureDir : List Char → FsOp
  | writeFile : List Char → List Char → FsOp
  | unlink : List Char → FsOp
  deriving Repr, DecidableEq

/-- Lookup in a snapshot of the project files (full path paired with
content); models `fs.pathExists` / `fs.readFile` on that snapshot. -/
def fsFind : List (List Char × List Char) → List Char → Option (List Char)
  | [], _ => none
  | (q, c) :: rest, p => if q = p then some c else fsFind rest p

/-- `applyFileChange` (src/services/file-operation-service.ts lines 341-440)
as a function from a filesystem snapshot to the list of filesystem calls it
performs. The path is cleaned and resolved (`resolveProjectPath`, also used
by every path-utils helper on the same arguments, hence the single resolved
`fullPath`). CREATE: `fs.ensureDir(path.dirname(fullPath))` then
`writeProjectFileAsync` (which ensures the directory again and writes).
EDIT: ensure the directory, read the old content (empty if the file does not
exist), and if `generateColoredDiff`'s `hasChanges` — plain string inequality
`oldContent !== newContent` — is false, return before any write; otherwise
write via `writeProjectFileAsync`. DELETE: only if the file exists,
`deleteProjectFileAsync` unlinks it; otherwise just a warning log. -/
def applyFileChange (fs : List (List Char × List Char)) (projectDir : List Char)
    (action : ActionType) (filePath content : List Char) :
    Except PathError (List FsOp) :=
  let cleaned := cleanFilePath filePath
  match resolveProjectPath projectDir cleaned with
  | Except.error e => Except.error e
  | Except.ok fullPath =>
    match action with
    | ActionType.CREATE =>
      Except.ok [FsOp.ensureDir (posixDirname fullPath),
        FsOp.ensureDir (posixDirname fullPath), FsOp.writeFile fullPath content]
    | ActionType.EDIT =>
      let oldContent := match fsFind fs fullPath with
        | some c => c
        | none => []
      if content = oldContent then
        Except.ok [FsOp.ensureDir (posixDirname fullPath)]
      else
        Except.ok [FsOp.ensureDir (posixDirname fullPath),
          FsOp.ensureDir (posixDirname fullPath), FsOp.writeFile fullPath content]
    | ActionType.DELETE =>
      match fsFind fs fullPath with
      | some _ => Except.ok [FsOp.unlink fullPath]
      | none => Except.ok []
    | _ => Except.ok []

/-- C7: `applyFileChange` on an EDIT whose content is byte-identical to the
existing file performs zero writes (its only filesystem call is the
directory-ensure before the comparison), and on a DELETE of a path that does
not exist performs no filesystem operation and raises no error. -/
theorem C7_noop_edit_and_delete (fs : List (List Char × List Char))
    (projectDir filePath content fullPath : List Char)
    (hres : resolveProjectPath projectDir (cleanFilePath filePath) =
      Except.ok fullPath) :
    (fsFind fs fullPath = some content →
      applyFileChange fs projectDir ActionType.EDIT filePath content =
        Except.ok [FsOp.ensureDir (posixDirname fullPath)]) ∧
    (fsFind fs fullPath = none →
      applyFileChange fs projectDir ActionType.DELETE filePath content =
        Except.ok []) := by
  constructor
  · intro hsame
    simp [applyFileChange, hres, hsame]
  · intro hnone
    simp [applyFileChange, hres, hnone]

/-- C7 witness: with `/p1/a.txt` holding `hello`, an EDIT of `a.txt` to the
identical `hello` only ensures the directory; with an empty filesystem, a
DELETE of `b.txt` performs nothing and succeeds. -/
theorem C7_noop_edit_and_delete_witness :
    (applyFileChange [(("/p1/a.txt").data, ("hello").data)] ("/p1").data
        ActionType.EDIT ("a.txt").data ("hello").data =
      Except.ok [FsOp.ensureDir (("/p1").data)]) ∧
    (applyFileChange [] ("/p1").data ActionType.DELETE ("b.txt").data [] =
      Except.ok []) := by
  constructor
  · have h := (C7_noop_edit_and_delete [(("/p1/a.txt").data, ("hello").data)]
      ("/p1").data ("a.txt").data ("hello").data ("/p1/a.txt").data
      (by decide)).1 (by decide)
    rw [h]
    decide
  · exact (C7_noop_edit_and_delete [] ("/p1").data ("b.txt").data []
      ("/p1/b.txt").data (by decide)).2 (by decide)

/-! ### Stream tag parser (C1, C5, C9)

`ResponseProcessor.processChunk` / `processActionTags`
(src/utils/project-cleanup.ts lines 152-430). The parser state is the
`chunkBuffer` plus the optional `currentFileAction`; completed actions are
the `addAction` calls. `actionStartRegex` is
`/<action type="(CREATE|EDIT|DELETE|COMMAND|TEXT)"(?:\s+path="([^"]+)")?\s*>/`;
its backtracking search is deterministic: the five type alternatives are
mutually prefix-free and each is followed by a literal `"`; `\s+`/`\s*`
runs can only end at their maximal extent because the following literal
starts with a non-space character (`p`, `>`), and `([^"]+)` can only end at
the first `"`. -/

def actionOpenLit : List Char := ("<action type=\x22").data

def pathAttrLit : List Char := ("path=\x22").data

def closeLit : List Char := ("</action>").data

def typeLits : List (ActionType × List Char) :=
  [(ActionType.CREATE, ("CREATE").data), (ActionType.EDIT, ("EDIT").data),
   (ActionType.DELETE, ("DELETE").data), (ActionType.COMMAND, ("COMMAND").data),
   (ActionType.TEXT, ("TEXT").data)]

/-- A successful regex match at the current position: `match[1]` as an
`ActionType`, `match[2] || ''` and the length of `match[0]`. -/
structure TagMatch where
  mtype : ActionType
  mpath : List Char
  mlen : Nat
  deriving Repr, DecidableEq

/-- The alternation `(CREATE|EDIT|DELETE|COMMAND|TEXT)` followed by the
literal `"`: the alternatives are tried in order; none is a prefix of
another, so at most one fits. Returns the type and the consumed length. -/
def findType : List (ActionType × List Char) → List Char → Option (ActionType × Nat)
  | [], _ => none
  | (ty, lit) :: rest, s =>
    if isLitAt (lit ++ ['\x22']) s then some (ty, lit.length + 1)
    else findType rest s

/-- The optional group `(?:\s+path="([^"]+)")?`: a nonempty whitespace run
(necessarily maximal, since `path=` starts with a non-space), the literal
`path="`, a nonempty run of non-quote characters (necessarily maximal,
ending at the closing `"`). Returns the captured path and consumed length. -/
def matchPathGroup (s : List Char) : Option (List Char × Nat) :=
  let w := s.takeWhile isJsSpace
  if w.length == 0 then none
  else
    let s1 := s.drop w.length
    if isLitAt pathAttrLit s1 then
      let s2 := s1.drop pathAttrLit.length
      let pth := s2.takeWhile (fun c => !(c == '\x22'))
      if pth.length == 0 then none
      else
        match s2.drop pth.length with
        | '\x22' :: _ => some (pth, w.length + pathAttrLit.length + pth.length + 1)
        | _ => none
    else none

/-- The trailing `\s*>`: a (maximal) whitespace run followed by `>`. -/
def matchTail (s : List Char) : Option Nat :=
  let w := s.takeWhile isJsSpace
  match s.drop w.length with
  | '>' :: _ => some (w.length + 1)
  | _ => none

/-- `actionStartRegex` matched against the START of `s`: the literal
`<action type="`, the type alternation with its closing quote, then the
optional path group (on its failure the engine backtracks to dropping the
group), then `\s*>`. -/
def matchStartHere (s : List Char) : Option TagMatch :=
  if isLitAt actionOpenLit s then
    let s1 := s.drop actionOpenLit.length
    match findType typeLits s1 with
    | none => none
    | some (ty, k) =>
      let s2 := s1.drop k
      match matchPathGroup s2 with
      | some (pth, k2) =>
        match matchTail (s2.drop k2) with
        | some k3 => some ⟨ty, pth, actionOpenLit.length + k + k2 + k3⟩
        | none =>
          match matchTail s2 with
          | some k3 => some ⟨ty, [], actionOpenLit.length + k + k3⟩
          | none => none
      | none =>
        match matchTail s2 with
        | some k3 => some ⟨ty, [], actionOpenLit.length + k + k3⟩
        | none => none
  else none

/-- `chunkBuffer.match(actionStartRegex)`: leftmost match position and its
match data. -/
def findStart : List Char → Option (Nat × TagMatch)
  | [] => none
  | c :: cs =>
    match matchStartHere (c :: cs) with
    | some m => some (0, m)
    | none =>
      match findStart cs with
      | some (i, m) => some (i + 1, m)
      | none => none

/-- `this.currentFileAction` (type, path, accumulated content). -/
structure FileAction where
  ftype : ActionType
  fpath : List Char
  fcontent : List Char
  deriving Repr, DecidableEq

/-- One `addAction(type, path, content)` call. -/
structure EmittedAction where
  etype : ActionType
  epath : List Char
  econtent : List Char
  deriving Repr, DecidableEq

/-- Parser state: `chunkBuffer` and `currentFileAction`. -/
structure PState where
  buffer : List Char
  current : Option FileAction
  deriving Repr, DecidableEq

/-- One round of `processActionTags` up to its recursive call: `none` when
the method returns waiting for more input (buffer untouched), `some` with
the emitted actions and successor state when it consumes buffer input.
Branches in source order: with a `currentFileAction`, look for `</action>`
and on success emit the action and cut the buffer past the closing tag;
otherwise find the earliest start-tag match, then TEXT (inline emit of the
trimmed body, buffer cut past the closing tag), COMMAND (open a current
action holding the trimmed body but remove only the opening tag from the
buffer), CREATE/EDIT (open a current action), DELETE only with a nonempty
path (a pathless DELETE falls through every branch and nothing is
consumed). -/
def step (st : PState) : Option (List EmittedAction × PState) :=
  match st.current with
  | some a =>
    match firstOccur closeLit st.buffer with
    | some i =>
      some ([⟨a.ftype, a.fpath, a.fcontent ++ st.buffer.take i⟩],
        ⟨st.buffer.drop (i + closeLit.length), none⟩)
    | none => none
  | none =>
    match findStart st.buffer with
    | none => none
    | some (i, m) =>
      match m.mtype with
      | ActionType.TEXT =>
        match firstOccur closeLit (st.buffer.drop (i + m.mlen)) with
        | some j =>
          some ([⟨ActionType.TEXT, [],
              jsTrim ((st.buffer.drop (i + m.mlen)).take j)⟩],
            ⟨st.buffer.drop (i + m.mlen + j + closeLit.length), none⟩)
        | none => none
      | ActionType.COMMAND =>
        match firstOccur closeLit (st.buffer.drop (i + m.mlen)) with
        | some j =>
          some ([], ⟨st.buffer.drop (i + m.mlen),
            some ⟨ActionType.COMMAND, [],
              jsTrim ((st.buffer.drop (i + m.mlen)).take j)⟩⟩)
        | none => none
      | ActionType.CREATE =>
        some ([], ⟨st.buffer.drop (i + m.mlen),
          some ⟨ActionType.CREATE, m.mpath, []⟩⟩)
      | ActionType.EDIT =>
        some ([], ⟨st.buffer.drop (i + m.mlen),
          some ⟨ActionType.EDIT, m.mpath, []⟩⟩)
      | ActionType.DELETE =>
        if m.mpath.isEmpty then none
        else some ([], ⟨st.buffer.drop (i + m.mlen),
          some ⟨ActionType.DELETE, m.mpath, []⟩⟩)

/-- The recursion of `processActionTags`, fuel-bounded (each consuming round
strictly shrinks the buffer, so `buffer.length + 1` fuel always reaches the
quiescent state). -/
def processTags : Nat → PState → List EmittedAction × PState
  | 0, st => ([], st)
  | f + 1, st =>
    match step st with
    | none => ([], st)
    | some (es, st') =>
      let r := processTags f st'
      (es ++ r.1, r.2)

/-- Run `processActionTags` to quiescence. -/
def consume (st : PState) : List EmittedAction × PState :=
  processTags (st.buffer.length + 1) st

/-- `processChunk text`: append the chunk to the buffer, then process. -/
def feed (st : PState) (text : List Char) : List EmittedAction × PState :=
  consume ⟨st.buffer ++ text, st.current⟩

/-- Stream a list of chunks through `processChunk`, collecting the emitted
actions in order. -/
def feedAll (st : PState) : List (List Char) → List EmittedAction × PState
  | [] => ([], st)
  | c :: cs =>
    let r := feed st c
    let r2 := feedAll r.2 cs
    (r.1 ++ r2.1, r2.2)

/-- The parser's initial state: empty buffer, no current action. -/
def initPS : PState := ⟨[], none⟩

/-! ### Basic prefix/run lemmas for the parser -/

/-- A matched literal is no longer than the text. -/
theorem isLitAt_len {p s : List Char} (h : isLitAt p s = true) :
    p.length ≤ s.length := by
  induction p generalizing s with
  | nil => simp
  | cons l ls ih =>
    cases s with
    | nil => simp [isLitAt] at h
    | cons c cs =>
      simp only [isLitAt, Bool.and_eq_true] at h
      simpa using ih h.2

/-- `isLitAt p s` holds exactly when `p` is a prefix of `s`. -/
theorem isLitAt_iff {p s : List Char} : isLitAt p s = true ↔ ∃ r, s = p ++ r := by
  induction p generalizing s with
  | nil => simp [isLitAt]
  | cons l ls ih =>
    cases s with
    | nil =>
      simp [isLitAt]
    | cons c cs =>
      simp only [isLitAt, Bool.and_eq_true, beq_iff_eq, ih, List.cons_append]
      constructor
      · rintro ⟨rfl, r, rfl⟩; exact ⟨r, rfl⟩
      · rintro ⟨r, h⟩
        injection h with h1 h2
        exact ⟨h1.symm, r, h2⟩

/-- A prefix test that fits inside `s` is unchanged by appending. -/
theorem isLitAt_stable (p : List Char) : ∀ (s t : List Char),
    p.length ≤ s.length → isLitAt p (s ++ t) = isLitAt p s := by
  induction p with
  | nil => intro s t _; simp [isLitAt]
  | cons l ls ih =>
    intro s t h
    cases s with
    | nil => simp at h
    | cons c cs =>
      simp only [List.cons_append, isLitAt, List.append_eq]
      rw [ih cs t (by simpa using h)]

/-- A prefix test succeeding on `s ++ t` either already succeeded on `s` or
overran `s`. -/
theorem isLitAt_append_split {p s t : List Char}
    (h : isLitAt p (s ++ t) = true) :
    isLitAt p s = true ∨ s.length < p.length := by
  by_cases hl : p.length ≤ s.length
  · left; rw [← isLitAt_stable p s t hl]; exact h
  · right; omega

/-- An occurrence reported by `firstOccur` lies inside the text. -/
theorem firstOccur_le {lit : List Char} : ∀ {s : List Char} {i : Nat},
    firstOccur lit s = some i → i + lit.length ≤ s.length := by
  intro s
  induction s with
  | nil =>
    intro i h
    simp only [firstOccur] at h
    split_ifs at h with he
    · simp only [List.isEmpty_iff] at he
      subst he
      simp only [Option.some.injEq] at h
      subst h
      simp
  | cons c cs ih =>
    intro i h
    simp only [firstOccur] at h
    split_ifs at h with hq
    · have hl := isLitAt_len hq
      simp only [Option.some.injEq] at h
      simp only [List.length_cons] at hl ⊢
      omega
    · cases hfo : firstOccur lit cs with
      | none => rw [hfo] at h; simp at h
      | some j =>
        rw [hfo] at h
        simp at h
        have hle := ih hfo
        simp only [List.length_cons]
        omega

/-- The first occurrence, when it exists, is unchanged by appending. -/
theorem firstOccur_append {lit : List Char} : ∀ {s : List Char} {i : Nat}
    (t : List Char), firstOccur lit s = some i →
    firstOccur lit (s ++ t) = some i := by
  intro s
  induction s with
  | nil =>
    intro i t h
    simp only [firstOccur] at h
    split_ifs at h with he
    · simp only [List.isEmpty_iff] at he
      subst he
      simp only [Option.some.injEq] at h
      subst h
      cases t with
      | nil => rfl
      | cons x xs => simp [firstOccur, isLitAt]
  | cons c cs ih =>
    intro i t h
    simp only [firstOccur] at h
    split_ifs at h with hq
    · simp only [Option.some.injEq] at h
      have hq' : isLitAt lit (c :: (cs ++ t)) = true := by
        have hs := isLitAt_stable lit (c :: cs) t (isLitAt_len hq)
        simp only [List.cons_append] at hs
        rw [hs]
        exact hq
      simp only [List.cons_append, firstOccur, List.append_eq]
      rw [if_pos hq', ← h]
    · cases hfo : firstOccur lit cs with
      | none => rw [hfo] at h; simp at h
      | some j =>
        rw [hfo] at h
        simp at h
        have hle := firstOccur_le hfo
        have hq2 : ¬ isLitAt lit (c :: (cs ++ t)) = true := by
          have hs := isLitAt_stable lit (c :: cs) t
            (by simp only [List.length_cons]; omega)
          simp only [List.cons_append] at hs
          rw [hs]
          exact hq
        have hrec := ih t hfo
        simp only [List.cons_append, firstOccur, List.append_eq]
        rw [if_neg hq2, hrec]
        simp [h]

/-- A whitespace-style run is unchanged by appending when some character of
`s` already breaks it. -/
theorem takeWhile_append_all_false {P : Char → Bool} : ∀ {s : List Char}
    (t : List Char), s.all P = false → (s ++ t).takeWhile P = s.takeWhile P := by
  intro s
  induction s with
  | nil => intro t h; simp at h
  | cons c cs ih =>
    intro t h
    simp only [List.all_cons, Bool.and_eq_false_iff] at h
    cases hc : P c with
    | false => simp [List.takeWhile, hc]
    | true =>
      have hcs : cs.all P = false := by
        rcases h with h | h
        · rw [hc] at h; cases h
        · exact h
      simp [List.takeWhile, hc, ih t hcs]

/-- Same for the dropped remainder. -/
theorem dropWhile_append_all_false {P : Char → Bool} : ∀ {s : List Char}
    (t : List Char), s.all P = false →
    (s ++ t).dropWhile P = s.dropWhile P ++ t := by
  intro s
  induction s with
  | nil => intro t h; simp at h
  | cons c cs ih =>
    intro t h
    simp only [List.all_cons, Bool.and_eq_false_iff] at h
    cases hc : P c with
    | false => simp [List.dropWhile, hc]
    | true =>
      have hcs : cs.all P = false := by
        rcases h with h | h
        · rw [hc] at h; cases h
        · exact h
      simp [List.dropWhile, hc, ih t hcs]

/-- Dropping the run's length yields the `dropWhile` remainder. -/
theorem drop_takeWhile_len (P : Char → Bool) : ∀ s : List Char,
    s.drop (s.takeWhile P).length = s.dropWhile P := by
  intro s
  induction s with
  | nil => rfl
  | cons c cs ih =>
    cases hc : P c with
    | false => simp [List.takeWhile, List.dropWhile, hc]
    | true => simp [List.takeWhile, List.dropWhile, hc, ih]

/-- A breaking character at position `D` bounds the run's length by `D`. -/
theorem takeWhile_len_le_of_drop {P : Char → Bool} : ∀ {s : List Char}
    {D : Nat} {c : Char} {r : List Char}, s.drop D = c :: r → P c = false →
    (s.takeWhile P).length ≤ D := by
  intro s
  induction s with
  | nil =>
    intro D c r h _
    rw [List.drop_nil] at h
    cases h
  | cons x xs ih =>
    intro D c r h hc
    cases D with
    | zero =>
      rw [List.drop_zero] at h
      injection h with h1 h2
      subst h1
      simp [List.takeWhile, hc]
    | succ D' =>
      cases hx : P x with
      | false => simp [List.takeWhile, hx]
      | true =>
        rw [List.drop_succ_cons] at h
        have := ih h hc
        simp [List.takeWhile, hx]
        omega

/-- A breaking character at position `D` falsifies `all`. -/
theorem all_false_of_drop {P : Char → Bool} {s : List Char} {D : Nat}
    {c : Char} {r : List Char} (h : s.drop D = c :: r) (hc : P c = false) :
    s.all P = false := by
  have hmem : c ∈ s := List.drop_subset D s (by rw [h]; exact List.mem_cons_self c r)
  cases hall : s.all P with
  | false => rfl
  | true =>
    rw [List.all_eq_true] at hall
    rw [hall c hmem] at hc
    cases hc


/-- `matchTail` consumes at least the `>` and at most the whole text. -/
theorem matchTail_pos_le {s : List Char} {k : Nat} (h : matchTail s = some k) :
    0 < k ∧ k ≤ s.length := by
  simp only [matchTail] at h
  set w := s.takeWhile isJsSpace with hw
  cases hd : s.drop w.length with
  | nil => rw [hd] at h; cases h
  | cons x xs =>
    rw [hd] at h
    split at h
    · simp only [Option.some.injEq] at h
      have hlen : s.length - w.length = xs.length + 1 := by
        have := congrArg List.length hd
        simpa using this
      have hwle : w.length ≤ s.length := by
        rw [hw]
        simpa using (List.takeWhile_sublist _).length_le
      omega
    · cases h

/-- `matchPathGroup` consumes a positive length bounded by the text. -/
theorem matchPathGroup_le {s : List Char} {p : List Char} {k2 : Nat}
    (h : matchPathGroup s = some (p, k2)) : 0 < k2 ∧ k2 ≤ s.length := by
  simp only [matchPathGroup] at h
  set w := s.takeWhile isJsSpace with hw
  set s1 := s.drop w.length with hs1
  set s2 := s1.drop pathAttrLit.length with hs2
  set pth := s2.takeWhile (fun c => !(c == '\x22')) with hpth
  split_ifs at h with h0 h1 h2
  split at h
  · rename_i x xs hd
    simp only [Option.some.injEq, Prod.mk.injEq] at h
    have hlit := isLitAt_len h1
    have hlen2 : s2.length - pth.length = xs.length + 1 := by
      have := congrArg List.length hd
      simpa using this
    have hlen1 : s2.length = s1.length - pathAttrLit.length := by
      rw [hs2]; simp
    have hlen0 : s1.length = s.length - w.length := by
      rw [hs1]; simp
    have hwle : w.length ≤ s.length := by
      rw [hw]
      simpa using (List.takeWhile_sublist _).length_le
    have hple : pth.length ≤ s2.length := by
      rw [hpth]
      simpa using (List.takeWhile_sublist _).length_le
    omega
  · cases h

/-- `findType` consumes a positive length bounded by the text. -/
theorem findType_le : ∀ {ts : List (ActionType × List Char)} {s : List Char}
    {ty : ActionType} {k : Nat}, findType ts s = some (ty, k) →
    0 < k ∧ k ≤ s.length := by
  intro ts
  induction ts with
  | nil => intro s ty k h; cases h
  | cons hd rest ih =>
    intro s ty k h
    obtain ⟨ty0, lit⟩ := hd
    simp only [findType] at h
    split_ifs at h with hq
    · simp only [Option.some.injEq, Prod.mk.injEq] at h
      have := isLitAt_len hq
      simp at this
      omega
    · exact ih h

/-- A regex match at a position is nonempty and lies inside the text. -/
theorem mSH_le {s : List Char} {m : TagMatch}
    (h : matchStartHere s = some m) : 0 < m.mlen ∧ m.mlen ≤ s.length := by
  simp only [matchStartHere] at h
  split_ifs at h with h0
  have hopen := isLitAt_len h0
  split at h
  · cases h
  · rename_i ty k heq
    have hk := findType_le heq
    simp only [List.length_drop] at hk
    split at h
    · rename_i pth k2 heq2
      have h2 := matchPathGroup_le heq2
      simp only [List.length_drop] at h2
      split at h
      · rename_i k3 heq3
        have h3 := matchTail_pos_le heq3
        simp only [List.length_drop] at h3
        simp only [Option.some.injEq] at h
        subst h
        dsimp only
        omega
      · split at h
        · rename_i k3 heq3
          have h3 := matchTail_pos_le heq3
          simp only [List.length_drop] at h3
          simp only [Option.some.injEq] at h
          subst h
          dsimp only
          omega
        · cases h
    · rename_i heq2
      split at h
      · rename_i k3 heq3
        have h3 := matchTail_pos_le heq3
        simp only [List.length_drop] at h3
        simp only [Option.some.injEq] at h
        subst h
        dsimp only
        omega
      · cases h

/-- A `findStart` hit lies inside the buffer. -/
theorem findStart_le : ∀ {s : List Char} {i : Nat} {m : TagMatch},
    findStart s = some (i, m) → 0 < m.mlen ∧ i + m.mlen ≤ s.length := by
  intro s
  induction s with
  | nil => intro i m h; cases h
  | cons c cs ih =>
    intro i m h
    simp only [findStart] at h
    cases hm : matchStartHere (c :: cs) with
    | some m0 =>
      rw [hm] at h
      simp only [Option.some.injEq, Prod.mk.injEq] at h
      obtain ⟨rfl, rfl⟩ := h
      have := mSH_le hm
      simp only [List.length_cons] at this ⊢
      omega
    | none =>
      rw [hm] at h
      cases hfs : findStart cs with
      | none => rw [hfs] at h; cases h
      | some im =>
        obtain ⟨i0, m0⟩ := im
        rw [hfs] at h
        simp only [Option.some.injEq, Prod.mk.injEq] at h
        obtain ⟨rfl, rfl⟩ := h
        have := ih hfs
        simp only [List.length_cons]
        omega

/-- A `findStart` hit is a `matchStartHere` hit at offset `i`. -/
theorem findStart_drop : ∀ {s : List Char} {i : Nat} {m : TagMatch},
    findStart s = some (i, m) → matchStartHere (s.drop i) = some m := by
  intro s
  induction s with
  | nil => intro i m h; cases h
  | cons c cs ih =>
    intro i m h
    simp only [findStart] at h
    cases hm : matchStartHere (c :: cs) with
    | some m0 =>
      rw [hm] at h
      simp only [Option.some.injEq, Prod.mk.injEq] at h
      obtain ⟨rfl, rfl⟩ := h
      simpa using hm
    | none =>
      rw [hm] at h
      cases hfs : findStart cs with
      | none => rw [hfs] at h; cases h
      | some im =>
        obtain ⟨i0, m0⟩ := im
        rw [hfs] at h
        simp only [Option.some.injEq, Prod.mk.injEq] at h
        obtain ⟨rfl, rfl⟩ := h
        simpa using ih hfs

/-- Every consuming parser round strictly shrinks the buffer. -/
theorem step_shrinks {st : PState} {es : List EmittedAction} {st' : PState}
    (h : step st = some (es, st')) : st'.buffer.length < st.buffer.length := by
  have h9 : closeLit.length = 9 := by decide
  simp only [step] at h
  split at h
  · -- currentFileAction present: close-tag branch
    split at h
    · rename_i i heq
      simp only [Option.some.injEq, Prod.mk.injEq] at h
      obtain ⟨-, rfl⟩ := h
      have := firstOccur_le heq
      simp only [List.length_drop]
      omega
    · cases h
  · -- no current action: start-tag branch
    split at h
    · cases h
    · rename_i i m heq
      have hb := findStart_le heq
      split at h
      · -- TEXT
        split at h
        · rename_i j heq2
          simp only [Option.some.injEq, Prod.mk.injEq] at h
          obtain ⟨-, rfl⟩ := h
          simp only [List.length_drop]
          omega
        · cases h
      · -- COMMAND
        split at h
        · rename_i j heq2
          simp only [Option.some.injEq, Prod.mk.injEq] at h
          obtain ⟨-, rfl⟩ := h
          simp only [List.length_drop]
          omega
        · cases h
      · -- CREATE
        simp only [Option.some.injEq, Prod.mk.injEq] at h
        obtain ⟨-, rfl⟩ := h
        simp only [List.length_drop]
        omega
      · -- EDIT
        simp only [Option.some.injEq, Prod.mk.injEq] at h
        obtain ⟨-, rfl⟩ := h
        simp only [List.length_drop]
        omega
      · -- DELETE
        split_ifs at h with hp
        simp only [Option.some.injEq, Prod.mk.injEq] at h
        obtain ⟨-, rfl⟩ := h
        simp only [List.length_drop]
        omega

/-- `processTags` does not depend on the fuel once it exceeds the buffer
length. -/
theorem processTags_fuel : ∀ (f1 : Nat) {f2 : Nat} {st : PState},
    st.buffer.length < f1 → st.buffer.length < f2 →
    processTags f1 st = processTags f2 st := by
  intro f1
  induction f1 with
  | zero => intro f2 st h1 _; omega
  | succ g ih =>
    intro f2 st h1 h2
    cases f2 with
    | zero => omega
    | succ g2 =>
      simp only [processTags]
      cases hstep : step st with
      | none => rfl
      | some r =>
        obtain ⟨es, st'⟩ := r
        have hs := step_shrinks hstep
        dsimp only
        rw [@ih g2 st' (by omega) (by omega)]

/-- A quiescent state is a fixed point of `consume`. -/
theorem consume_of_step_none {st : PState} (h : step st = none) :
    consume st = ([], st) := by
  simp only [consume, processTags, h]

/-- After `consume`, the parser is quiescent. -/
theorem consume_quiescent (st : PState) : step (consume st).2 = none := by
  suffices hgen : ∀ (f : Nat) (s : PState), s.buffer.length < f →
      step (processTags f s).2 = none by
    exact hgen _ st (by omega)
  intro f
  induction f with
  | zero => intro s h; omega
  | succ g ih =>
    intro s h
    simp only [processTags]
    cases hstep : step s with
    | none => simpa using hstep
    | some r =>
      obtain ⟨es, st'⟩ := r
      have hs := step_shrinks hstep
      simpa using ih st' (by omega)


/-- Appending cannot break a successful prefix test. -/
theorem isLitAt_append_true {p s : List Char} (t : List Char)
    (h : isLitAt p s = true) : isLitAt p (s ++ t) = true := by
  rw [isLitAt_stable p s t (isLitAt_len h)]
  exact h

/-- The head of a `dropWhile` remainder breaks the predicate. -/
theorem dropWhile_head_false {P : Char → Bool} : ∀ {s : List Char} {x : Char}
    {xs : List Char}, s.dropWhile P = x :: xs → P x = false := by
  intro s
  induction s with
  | nil => intro x xs h; cases h
  | cons c cs ih =>
    intro x xs h
    by_cases hc : P c = true
    · rw [List.dropWhile_cons_of_pos hc] at h
      exact ih h
    · rw [List.dropWhile_cons_of_neg hc] at h
      injection h with h1 _
      subst h1
      simpa using hc

/-- Two prefixes of the same text are comparable. -/
theorem isLitAt_comparable : ∀ {s L1 L2 : List Char},
    isLitAt L1 s = true → isLitAt L2 s = true →
    isLitAt L1 L2 = true ∨ isLitAt L2 L1 = true := by
  intro s
  induction s with
  | nil =>
    intro L1 L2 h1 h2
    cases L1 with
    | nil => left; rfl
    | cons a as => simp [isLitAt] at h1
  | cons c cs ih =>
    intro L1 L2 h1 h2
    cases L1 with
    | nil => left; rfl
    | cons a as =>
      cases L2 with
      | nil => right; rfl
      | cons b bs =>
        simp only [isLitAt, Bool.and_eq_true, beq_iff_eq] at h1 h2 ⊢
        obtain ⟨rfl, h1⟩ := h1
        obtain ⟨rfl, h2⟩ := h2
        rcases ih h1 h2 with h | h
        · left; exact ⟨rfl, h⟩
        · right; exact ⟨rfl, h⟩

/-- Two literals matching at the same position are prefix-comparable. -/
theorem isLitAt_two_comparable {L1 L2 s t : List Char}
    (h1 : isLitAt L1 (s ++ t) = true) (h2 : isLitAt L2 s = true) :
    isLitAt L1 L2 = true ∨ isLitAt L2 L1 = true :=
  isLitAt_comparable h1 (isLitAt_append_true t h2)

/-- A successful type-alternation match is unchanged by appending: the five
literals (each with its closing quote) are mutually prefix-incomparable, so
no other alternative can fire on the extended text. -/
theorem findType_append_some {s t : List Char} {ty : ActionType} {k : Nat}
    (h : findType typeLits s = some (ty, k)) :
    findType typeLits (s ++ t) = some (ty, k) := by
  simp only [typeLits, findType] at h ⊢
  split_ifs at h with h1 h2 h3 h4 h5 <;>
    split_ifs with g1 g2 g3 g4 g5 <;>
    first
      | exact h
      | (obtain ⟨rfl, rfl⟩ := h; rfl)
      | exact Option.noConfusion h
      | (exfalso
         rcases isLitAt_two_comparable (by assumption) (by assumption) with hp | hp <;>
           revert hp <;> decide)
      | (exfalso
         have hT := isLitAt_append_true t h1
         first | exact g1 hT | exact g2 hT | exact g3 hT | exact g4 hT | exact g5 hT)
      | (exfalso
         have hT := isLitAt_append_true t h2
         first | exact g1 hT | exact g2 hT | exact g3 hT | exact g4 hT | exact g5 hT)
      | (exfalso
         have hT := isLitAt_append_true t h3
         first | exact g1 hT | exact g2 hT | exact g3 hT | exact g4 hT | exact g5 hT)
      | (exfalso
         have hT := isLitAt_append_true t h4
         first | exact g1 hT | exact g2 hT | exact g3 hT | exact g4 hT | exact g5 hT)
      | (exfalso
         have hT := isLitAt_append_true t h5
         first | exact g1 hT | exact g2 hT | exact g3 hT | exact g4 hT | exact g5 hT)


/-- A run of satisfying characters followed by a breaking character is
exactly what `takeWhile`/`dropWhile` split off. -/
theorem takeWhile_append_break {P : Char → Bool} : ∀ {w : List Char}
    {c : Char} {r : List Char}, w.all P = true → P c = false →
    (w ++ c :: r).takeWhile P = w ∧ (w ++ c :: r).dropWhile P = c :: r := by
  intro w
  induction w with
  | nil =>
    intro c r _ hc
    simp [List.takeWhile, List.dropWhile, hc]
  | cons a as ih =>
    intro c r hw hc
    simp only [List.all_cons, Bool.and_eq_true] at hw
    have hrec := ih (r := r) hw.2 hc
    simp [List.takeWhile, List.dropWhile, hw.1, hrec.1, hrec.2]

/-- The run kept by `takeWhile` satisfies the predicate. -/
theorem all_takeWhile (P : Char → Bool) : ∀ (s : List Char),
    (s.takeWhile P).all P = true := by
  intro s
  induction s with
  | nil => rfl
  | cons c cs ih =>
    cases hc : P c with
    | false => simp [List.takeWhile, hc]
    | true => simp [List.takeWhile, hc, ih]

/-- Characterization of the trailing `\s*>` match: a whitespace run followed
by `>`. -/
theorem matchTail_some_iff {s : List Char} {k : Nat} :
    matchTail s = some k ↔
    ∃ w r, s = w ++ '>' :: r ∧ w.all isJsSpace = true ∧ k = w.length + 1 := by
  constructor
  · intro h
    simp only [matchTail] at h
    cases hd : s.drop (s.takeWhile isJsSpace).length with
    | nil => rw [hd] at h; cases h
    | cons x xs =>
      rw [hd] at h
      split at h
      · rename_i heq
        injection heq with hx hxs
        simp only [Option.some.injEq] at h
        rw [drop_takeWhile_len, hx] at hd
        have hsp := @List.takeWhile_append_dropWhile _ isJsSpace s
        refine ⟨s.takeWhile isJsSpace, xs, ?_, all_takeWhile _ s, h.symm⟩
        conv_lhs => rw [← hsp]
        rw [hd]
      · cases h
  · rintro ⟨w, r, rfl, hw, rfl⟩
    have hsplit := takeWhile_append_break (c := '>') (r := r) hw (by decide)
    simp only [matchTail, hsplit.1, List.drop_left]

/-- Characterization of the path group: a nonempty whitespace run, the
literal `path="`, a nonempty quote-free capture, the closing quote. -/
theorem matchPathGroup_some_iff {s : List Char} {p : List Char} {k2 : Nat} :
    matchPathGroup s = some (p, k2) ↔
    ∃ w r2, s = w ++ pathAttrLit ++ p ++ '\x22' :: r2 ∧ w ≠ [] ∧
      w.all isJsSpace = true ∧ p ≠ [] ∧
      p.all (fun c => !(c == '\x22')) = true ∧
      k2 = w.length + pathAttrLit.length + p.length + 1 := by
  constructor
  · intro h
    simp only [matchPathGroup] at h
    split_ifs at h with h0 h1 h2
    cases hd : ((s.drop (s.takeWhile isJsSpace).length).drop
        pathAttrLit.length).drop
        (((s.drop (s.takeWhile isJsSpace).length).drop
          pathAttrLit.length).takeWhile (fun c => !(c == '\x22'))).length with
    | nil => rw [hd] at h; cases h
    | cons y ys =>
      rw [hd] at h
      split at h
      · rename_i heq
        injection heq with hy hys
        simp only [Option.some.injEq, Prod.mk.injEq] at h
        obtain ⟨rfl, rfl⟩ := h
        rw [isLitAt_iff] at h1
        obtain ⟨r, hr⟩ := h1
        rw [drop_takeWhile_len] at hr
        have hs2 : (s.drop (s.takeWhile isJsSpace).length).drop
            pathAttrLit.length = r := by
          rw [drop_takeWhile_len, hr, List.drop_left]
        have hsp := @List.takeWhile_append_dropWhile _ isJsSpace s
        have hsp2 := @List.takeWhile_append_dropWhile _ (fun c => !(c == '\x22'))
          ((s.drop (s.takeWhile isJsSpace).length).drop pathAttrLit.length)
        rw [drop_takeWhile_len, hy] at hd
        refine ⟨s.takeWhile isJsSpace, ys, ?_, ?_, all_takeWhile _ s, ?_,
          all_takeWhile _ _, rfl⟩
        · have hr2 : r = ((s.drop (s.takeWhile isJsSpace).length).drop
              pathAttrLit.length).takeWhile (fun c => !(c == '\x22')) ++
              '\x22' :: ys := by
            rw [← hs2]
            conv_lhs => rw [← hsp2]
            rw [hd]
          conv_lhs => rw [← hsp]
          rw [hr, hr2]
          simp [List.append_assoc]
        · intro hnil
          rw [hnil] at h0
          simp at h0
        · intro hnil
          rw [hnil] at h2
          simp at h2
      · cases h
  · rintro ⟨w, r2, rfl, hw0, hw, hp0, hpq, rfl⟩
    have hshape : w ++ pathAttrLit ++ p ++ '\x22' :: r2 =
        w ++ 'p' :: (("ath=\x22").data ++ (p ++ '\x22' :: r2)) := by
      simp [pathAttrLit]
    have hsplit := takeWhile_append_break (c := 'p')
      (r := ("ath=\x22").data ++ (p ++ '\x22' :: r2)) hw (by decide)
    simp only [matchPathGroup]
    rw [hshape, hsplit.1]
    rw [if_neg (by simpa using hw0)]
    rw [List.drop_left]
    have hlit : isLitAt pathAttrLit
        ('p' :: (("ath=\x22").data ++ (p ++ '\x22' :: r2))) = true := by
      rw [isLitAt_iff]
      exact ⟨p ++ '\x22' :: r2, rfl⟩
    rw [if_pos hlit]
    have hdrop6 : ('p' :: (("ath=\x22").data ++ (p ++ '\x22' :: r2))).drop
        pathAttrLit.length = p ++ '\x22' :: r2 := rfl
    rw [hdrop6]
    have hsplit2 := takeWhile_append_break (c := '\x22') (r := r2) hpq (by decide)
    rw [hsplit2.1]
    rw [if_neg (by simpa using hp0)]
    rw [List.drop_left]
    rfl

/-- A successful path-group match is unchanged by appending. -/
theorem matchPathGroup_append_some {s t : List Char} {p : List Char} {k2 : Nat}
    (h : matchPathGroup s = some (p, k2)) :
    matchPathGroup (s ++ t) = some (p, k2) := by
  rw [matchPathGroup_some_iff] at h ⊢
  obtain ⟨w, r2, rfl, hw0, hw, hp0, hpq, rfl⟩ := h
  exact ⟨w, r2 ++ t, by simp, hw0, hw, hp0, hpq, rfl⟩

/-- When the path group matches, the trailing-only reading is impossible:
the whitespace run is followed by `path=`, not by `>`. -/
theorem matchTail_none_of_pathGroup {s : List Char} {p : List Char} {k2 : Nat}
    (h : matchPathGroup s = some (p, k2)) : matchTail s = none := by
  rw [matchPathGroup_some_iff] at h
  obtain ⟨w, r2, rfl, hw0, hw, hp0, hpq, rfl⟩ := h
  cases htl : matchTail (w ++ pathAttrLit ++ p ++ '\x22' :: r2) with
  | none => rfl
  | some k =>
    exfalso
    rw [matchTail_some_iff] at htl
    obtain ⟨w2, r, hshape, hw2, rfl⟩ := htl
    have hshape2 : w ++ pathAttrLit ++ p ++ '\x22' :: r2 =
        w ++ 'p' :: (("ath=\x22").data ++ (p ++ '\x22' :: r2)) := by
      simp [pathAttrLit]
    have hsplit := takeWhile_append_break (c := 'p')
      (r := ("ath=\x22").data ++ (p ++ '\x22' :: r2)) hw (by decide)
    have hsplit2 := takeWhile_append_break (c := '>') (r := r) hw2 (by decide)
    have hdw1 : (w ++ pathAttrLit ++ p ++ '\x22' :: r2).dropWhile isJsSpace =
        'p' :: (("ath=\x22").data ++ (p ++ '\x22' :: r2)) := by
      rw [hshape2, hsplit.2]
    have hdw2 : (w ++ pathAttrLit ++ p ++ '\x22' :: r2).dropWhile isJsSpace =
        '>' :: r := by
      rw [hshape, hsplit2.2]
    rw [hdw1] at hdw2
    injection hdw2 with hc _
    cases hc


/-- As soon as some character of `s` is not whitespace, the trailing
`\s*>` match is unchanged by appending. -/
theorem matchTail_stable {s : List Char} (t : List Char)
    (h : s.all isJsSpace = false) : matchTail (s ++ t) = matchTail s := by
  simp only [matchTail]
  rw [takeWhile_append_all_false t h]
  have hwle : (s.takeWhile isJsSpace).length ≤ s.length := by
    simpa using (List.takeWhile_sublist _).length_le
  rw [List.drop_append_of_le_length hwle]
  rw [drop_takeWhile_len]
  cases hdw : s.dropWhile isJsSpace with
  | nil =>
    exfalso
    rw [List.dropWhile_eq_nil_iff] at hdw
    have hall : s.all isJsSpace = true := List.all_eq_true.mpr hdw
    rw [hall] at h
    cases h
  | cons y ys =>
    show (match y :: (ys ++ t) with
      | '>' :: _ => some ((s.takeWhile isJsSpace).length + 1)
      | _ => none) =
      (match y :: ys with
      | '>' :: _ => some ((s.takeWhile isJsSpace).length + 1)
      | _ => none)
    split
    · rename_i heq
      injection heq with hy _
      subst hy
      rfl
    · rename_i hne
      split
      · rename_i heq2
        injection heq2 with hy _
        subst hy
        exact absurd rfl (hne (ys ++ t))
      · rfl

/-- A successful `\s*>` match is unchanged by appending. -/
theorem matchTail_append_some {s t : List Char} {k : Nat}
    (h : matchTail s = some k) : matchTail (s ++ t) = some k := by
  rw [matchTail_some_iff] at h ⊢
  obtain ⟨w, r, rfl, hw, rfl⟩ := h
  exact ⟨w, r ++ t, by simp, hw, rfl⟩

/-- L1: a regex match at the start of the buffer is unchanged by appending
more stream input. -/
theorem mSH_append_some {s t : List Char} {m : TagMatch}
    (h : matchStartHere s = some m) : matchStartHere (s ++ t) = some m := by
  simp only [matchStartHere] at h ⊢
  split_ifs at h with h0
  rw [if_pos (isLitAt_append_true t h0)]
  have h14 : actionOpenLit.length ≤ s.length := isLitAt_len h0
  rw [List.drop_append_of_le_length h14]
  cases hft : findType typeLits (s.drop actionOpenLit.length) with
  | none => rw [hft] at h; cases h
  | some tk =>
    obtain ⟨ty, k⟩ := tk
    rw [hft] at h
    rw [findType_append_some hft]
    dsimp only at h ⊢
    have hk := findType_le hft
    have hkle : k ≤ (s.drop actionOpenLit.length).length := hk.2
    rw [List.drop_append_of_le_length hkle]
    cases hpg : matchPathGroup ((s.drop actionOpenLit.length).drop k) with
    | some pk =>
      obtain ⟨pth, k2⟩ := pk
      rw [hpg] at h
      rw [matchPathGroup_append_some hpg]
      dsimp only at h ⊢
      have hk2 := matchPathGroup_le hpg
      cases htl : matchTail (((s.drop actionOpenLit.length).drop k).drop k2) with
      | some k3 =>
        rw [htl] at h
        rw [List.drop_append_of_le_length hk2.2]
        rw [matchTail_append_some htl]
        exact h
      | none =>
        rw [htl] at h
        rw [matchTail_none_of_pathGroup hpg] at h
        cases h
    | none =>
      rw [hpg] at h
      dsimp only at h
      cases htl : matchTail ((s.drop actionOpenLit.length).drop k) with
      | none => rw [htl] at h; cases h
      | some k3 =>
        rw [htl] at h
        dsimp only at h
        rw [matchTail_some_iff] at htl
        obtain ⟨w, r, hshape, hw, rfl⟩ := htl
        have hsplit := takeWhile_append_break (c := '>') (r := r ++ t) hw
          (by decide)
        have hpgt : matchPathGroup ((s.drop actionOpenLit.length).drop k ++ t)
            = none := by
          simp only [matchPathGroup]
          rw [hshape, List.append_assoc, List.cons_append, hsplit.1]
          rw [List.drop_left]
          have hnl : isLitAt pathAttrLit ('>' :: (r ++ t)) = false := rfl
          rw [hnl]
          simp
        rw [hpgt]
        dsimp only
        have hmt : matchTail ((s.drop actionOpenLit.length).drop k ++ t) =
            some (w.length + 1) := by
          rw [matchTail_some_iff]
          exact ⟨w, r ++ t, by rw [hshape]; simp, hw, rfl⟩
        rw [hmt]
        exact h


/-- If a character absent from `L` appears at offset `e` of `L ++ Y`, the
offset lies beyond `L`. -/
theorem drop_head_notin {χ : Char} : ∀ {L : List Char}, (∀ c ∈ L, c ≠ χ) →
    ∀ {Y X : List Char} {e : Nat}, (L ++ Y).drop e = χ :: X → L.length ≤ e := by
  intro L
  induction L with
  | nil =>
    intro _ Y X e _
    simp
  | cons a as ih =>
    intro hL Y X e h
    cases e with
    | zero =>
      rw [List.drop_zero] at h
      injection h with h1 _
      exact absurd h1 (hL a (List.mem_cons_self a as))
    | succ e' =>
      rw [List.cons_append, List.drop_succ_cons] at h
      have := ih (fun c hc => hL c (List.mem_cons_of_mem a hc)) h
      simp only [List.length_cons]
      omega

/-- A prefix of an extended text that fits inside the original text is a
prefix of the original text. -/
theorem append_eq_append_prefix {a t P r : List Char} (h : a ++ t = P ++ r)
    (hle : P.length ≤ a.length) : ∃ q, a = P ++ q := by
  refine ⟨a.drop P.length, ?_⟩
  have h1 : a.take P.length = P := by
    have h2 : (a ++ t).take P.length = a.take P.length :=
      List.take_append_of_le_length hle
    rw [h] at h2
    rw [← h2, List.take_left]
  conv_lhs => rw [← List.take_append_drop P.length a]
  rw [h1]

/-- The consumed part of a successful type alternation contains no `<`. -/
theorem findType_decomp {s : List Char} {ty : ActionType} {k : Nat}
    (h : findType typeLits s = some (ty, k)) :
    ∃ L w2, s = L ++ w2 ∧ L.length = k ∧ (∀ c ∈ L, c ≠ '<') := by
  simp only [typeLits, findType] at h
  split_ifs at h with h1 h2 h3 h4 h5
  · rw [isLitAt_iff] at h1
    obtain ⟨r, hr⟩ := h1
    simp only [Option.some.injEq, Prod.mk.injEq] at h
    exact ⟨_, r, hr, by rw [← h.2]; rfl, by decide⟩
  · rw [isLitAt_iff] at h2
    obtain ⟨r, hr⟩ := h2
    simp only [Option.some.injEq, Prod.mk.injEq] at h
    exact ⟨_, r, hr, by rw [← h.2]; rfl, by decide⟩
  · rw [isLitAt_iff] at h3
    obtain ⟨r, hr⟩ := h3
    simp only [Option.some.injEq, Prod.mk.injEq] at h
    exact ⟨_, r, hr, by rw [← h.2]; rfl, by decide⟩
  · rw [isLitAt_iff] at h4
    obtain ⟨r, hr⟩ := h4
    simp only [Option.some.injEq, Prod.mk.injEq] at h
    exact ⟨_, r, hr, by rw [← h.2]; rfl, by decide⟩
  · rw [isLitAt_iff] at h5
    obtain ⟨r, hr⟩ := h5
    simp only [Option.some.injEq, Prod.mk.injEq] at h
    exact ⟨_, r, hr, by rw [← h.2]; rfl, by decide⟩

/-- If the extended text admits a path-group match while a complete
`<action type="` literal sits at offset `D2` of the original text, the
group already matches on the original text with the same capture, ending no
later than that literal's quote. -/
theorem pg_extended_some {s2 t v : List Char} {D2 kk2 : Nat} {p2 : List Char}
    (hpgE : matchPathGroup (s2 ++ t) = some (p2, kk2))
    (hlt2 : s2.drop D2 = '<' :: (("action type=\x22").data ++ v))
    (hq2 : s2.drop (D2 + 13) = '\x22' :: v)
    (hs2len : D2 + 14 ≤ s2.length) :
    matchPathGroup s2 = some (p2, kk2) ∧ kk2 ≤ D2 + 14 := by
  have h6 : pathAttrLit.length = 6 := rfl
  rw [matchPathGroup_some_iff] at hpgE
  obtain ⟨w3, r3, hdec, hw30, hw3, hp20, hp2q, rfl⟩ := hpgE
  have hdec' : s2 ++ t = (w3 ++ pathAttrLit) ++ (p2 ++ '\x22' :: r3) := by
    rw [hdec]
    simp [List.append_assoc]
  have hextlt : ((w3 ++ pathAttrLit) ++ (p2 ++ '\x22' :: r3)).drop D2 =
      '<' :: ((("action type=\x22").data ++ v) ++ t) := by
    rw [← hdec', List.drop_append_of_le_length (by omega), hlt2]
    rfl
  have hD2w : w3.length + pathAttrLit.length ≤ D2 := by
    have hno : ∀ c ∈ w3 ++ pathAttrLit, c ≠ '<' := by
      intro c hc
      rcases List.mem_append.mp hc with hcw | hcp
      · intro hceq
        subst hceq
        exact absurd ((List.all_eq_true.mp hw3) _ hcw) (by decide)
      · intro hceq
        subst hceq
        revert hcp
        decide
    have hb := drop_head_notin hno hextlt
    simp only [List.length_append] at hb
    omega
  have hextq : ((w3 ++ pathAttrLit) ++ (p2 ++ '\x22' :: r3)).drop
      ((w3 ++ pathAttrLit).length +
        (D2 + 13 - (w3.length + pathAttrLit.length))) =
      '\x22' :: (v ++ t) := by
    have harr : (w3 ++ pathAttrLit).length +
        (D2 + 13 - (w3.length + pathAttrLit.length)) = D2 + 13 := by
      simp only [List.length_append]
      omega
    rw [harr, ← hdec', List.drop_append_of_le_length (by omega), hq2]
    rfl
  rw [List.drop_append] at hextq
  have hp2no : ∀ c ∈ p2, c ≠ '\x22' := by
    intro c hc hceq
    subst hceq
    have := (List.all_eq_true.mp hp2q) _ hc
    simp at this
  have hp2len := drop_head_notin hp2no hextq
  have hP : s2 ++ t = (w3 ++ pathAttrLit ++ p2 ++ ['\x22']) ++ r3 := by
    rw [hdec]
    simp [List.append_assoc]
  have hPle : (w3 ++ pathAttrLit ++ p2 ++ ['\x22']).length ≤ s2.length := by
    simp only [List.length_append, List.length_cons, List.length_nil]
    omega
  obtain ⟨q, hq⟩ := append_eq_append_prefix hP hPle
  constructor
  · rw [matchPathGroup_some_iff]
    exact ⟨w3, q, by rw [hq]; simp [List.append_assoc], hw30, hw3, hp20,
      hp2q, rfl⟩
  · omega


/-- The type alternation reads at most 8 characters, so it is unchanged by
appending once the text holds 8. -/
theorem findType_stable_of_len {s : List Char} (t : List Char)
    (h8 : 8 ≤ s.length) : findType typeLits (s ++ t) = findType typeLits s := by
  simp only [typeLits, findType]
  rw [isLitAt_stable _ s t (by simp; omega), isLitAt_stable _ s t (by simp; omega),
    isLitAt_stable _ s t (by simp; omega), isLitAt_stable _ s t (by simp; omega),
    isLitAt_stable _ s t (by simp; omega)]

/-- A successful type alternation starts with a letter: not whitespace, not
`>`, not a quote. -/
theorem findType_head {s : List Char} {ty : ActionType} {k : Nat}
    (h : findType typeLits s = some (ty, k)) :
    ∃ c r, s = c :: r ∧ isJsSpace c = false ∧ (c == '>') = false ∧
      (c == '\x22') = false := by
  simp only [typeLits, findType] at h
  split_ifs at h with h1 h2 h3 h4 h5
  · rw [isLitAt_iff] at h1
    obtain ⟨r, hr⟩ := h1
    exact ⟨'C', _, by rw [hr]; rfl, by decide, by decide, by decide⟩
  · rw [isLitAt_iff] at h2
    obtain ⟨r, hr⟩ := h2
    exact ⟨'E', _, by rw [hr]; rfl, by decide, by decide, by decide⟩
  · rw [isLitAt_iff] at h3
    obtain ⟨r, hr⟩ := h3
    exact ⟨'D', _, by rw [hr]; rfl, by decide, by decide, by decide⟩
  · rw [isLitAt_iff] at h4
    obtain ⟨r, hr⟩ := h4
    exact ⟨'C', _, by rw [hr]; rfl, by decide, by decide, by decide⟩
  · rw [isLitAt_iff] at h5
    obtain ⟨r, hr⟩ := h5
    exact ⟨'T', _, by rw [hr]; rfl, by decide, by decide, by decide⟩

/-- L2: once the buffer holds a complete start tag at a positive offset,
the (failing or succeeding) regex probe at the buffer's start is unchanged
by appending: every character the probe inspects sits at or before that
complete tag. -/
theorem mSH_stable_of_found {u t : List Char} {d : Nat} {m : TagMatch}
    (hin : matchStartHere (u.drop d) = some m) (hd0 : 0 < d) :
    matchStartHere (u ++ t) = matchStartHere u := by
  have h14 : actionOpenLit.length = 14 := rfl
  have hOp : isLitAt actionOpenLit (u.drop d) = true := by
    by_contra hOpn
    simp only [matchStartHere] at hin
    rw [if_neg hOpn] at hin
    cases hin
  have hOp' := hOp
  rw [isLitAt_iff] at hOp'
  obtain ⟨v, hv⟩ := hOp'
  have hvft : (u.drop d).drop actionOpenLit.length = v := by
    rw [hv, List.drop_left]
  have hft2 : ∃ tyk, findType typeLits v = some tyk := by
    simp only [matchStartHere] at hin
    rw [if_pos hOp, hvft] at hin
    cases hft0 : findType typeLits v with
    | none => rw [hft0] at hin; cases hin
    | some tk => exact ⟨tk, rfl⟩
  obtain ⟨⟨tyv, kv⟩, hftv⟩ := hft2
  obtain ⟨c0, r0, hveq, hc0ws, hc0gt, hc0q⟩ := findType_head hftv
  have hdlen : d ≤ u.length ∧ u.length - d = 14 + v.length := by
    have hc := congrArg List.length hv
    simp only [List.length_drop, List.length_append, h14] at hc
    constructor
    · by_contra hgt
      push_neg at hgt
      omega
    · exact hc
  obtain ⟨hdle, hdeq⟩ := hdlen
  by_cases hOp0 : isLitAt actionOpenLit u = true
  case neg =>
    have hext : isLitAt actionOpenLit (u ++ t) = isLitAt actionOpenLit u := by
      apply isLitAt_stable
      omega
    simp only [matchStartHere]
    rw [hext, if_neg hOp0, if_neg hOp0]
  case pos =>
    have hOp0' := hOp0
    rw [isLitAt_iff] at hOp0'
    obtain ⟨u', hu⟩ := hOp0'
    subst hu
    have hd14 : 14 ≤ d := by
      cases d with
      | zero => omega
      | succ e =>
        have hv' : (("action type=\x22").data ++ u').drop e =
            '<' :: (("action type=\x22").data ++ v) := by
          have h1 : (("action type=\x22").data ++ u').drop e =
              (actionOpenLit ++ u').drop (e + 1) := rfl
          rw [h1, hv]
          rfl
        have hb := drop_head_notin (by decide) hv'
        have h13 : (("action type=\x22").data).length = 13 := rfl
        omega
    have hvu' : u'.drop (d - 14) = actionOpenLit ++ v := by
      have h2 : (actionOpenLit ++ u').drop d = u'.drop (d - 14) := by
        have hd' : d = actionOpenLit.length + (d - 14) := by
          rw [h14]
          omega
        conv_lhs => rw [hd']
        rw [List.drop_append]
      rw [← h2, hv]
    have hulen : 14 + (d - 14) ≤ u'.length := by
      have hc := congrArg List.length hvu'
      simp only [List.length_drop, List.length_append, h14] at hc
      by_contra hgt
      push_neg at hgt
      omega
    simp only [matchStartHere]
    rw [List.append_assoc]
    rw [if_pos (isLitAt_self_append actionOpenLit (u' ++ t)),
      if_pos (isLitAt_self_append actionOpenLit u')]
    rw [List.drop_left, List.drop_left]
    rw [findType_stable_of_len t (by omega)]
    cases hft : findType typeLits u' with
    | none => rfl
    | some tk =>
      obtain ⟨ty2, kk⟩ := tk
      dsimp only
      have hkk := findType_le hft
      rw [List.drop_append_of_le_length hkk.2]
      obtain ⟨L, w2, hsL, hLlen, hLno⟩ := findType_decomp hft
      have hDk : kk ≤ d - 14 := by
        have hhd : u'.drop (d - 14) =
            '<' :: (("action type=\x22").data ++ v) := by
          rw [hvu']
          rfl
        rw [hsL] at hhd
        have hb := drop_head_notin hLno hhd
        omega
      have hvs2 : (u'.drop kk).drop (d - 14 - kk) = actionOpenLit ++ v := by
        rw [List.drop_drop]
        have he : kk + (d - 14 - kk) = d - 14 := by omega
        rw [he, hvu']
      have hlt2 : (u'.drop kk).drop (d - 14 - kk) =
          '<' :: (("action type=\x22").data ++ v) := by
        rw [hvs2]
        rfl
      have hq2 : (u'.drop kk).drop (d - 14 - kk + 13) = '\x22' :: v := by
        have h1 : ((u'.drop kk).drop (d - 14 - kk)).drop 13 = '\x22' :: v := by
          rw [hvs2]
          rfl
        rw [List.drop_drop] at h1
        exact h1
      have hc0pos : (u'.drop kk).drop (d - 14 - kk + 14) = v := by
        have h1 : ((u'.drop kk).drop (d - 14 - kk)).drop 14 = v := by
          rw [hvs2]
          rfl
        rw [List.drop_drop] at h1
        exact h1
      have hs2len : d - 14 - kk + 14 ≤ (u'.drop kk).length := by
        have hc := congrArg List.length hvs2
        simp only [List.length_drop, List.length_append, h14] at hc
        simp only [List.length_drop]
        omega
      have hallw : (u'.drop kk).all isJsSpace = false :=
        all_false_of_drop hlt2 (by decide)
      cases hpgE : matchPathGroup (u'.drop kk ++ t) with
      | none =>
        cases hpgP : matchPathGroup (u'.drop kk) with
        | some pk =>
          exfalso
          have hc := matchPathGroup_append_some (t := t) hpgP
          rw [hpgE] at hc
          cases hc
        | none =>
          dsimp only
          rw [matchTail_stable t hallw]
      | some pk2 =>
        obtain ⟨p2, kk2⟩ := pk2
        obtain ⟨hpgP, hkk2le⟩ := pg_extended_some hpgE hlt2 hq2 hs2len
        rw [hpgP]
        dsimp only
        have hk2b := matchPathGroup_le hpgP
        rw [List.drop_append_of_le_length hk2b.2]
        have hwit : ((u'.drop kk).drop kk2).all isJsSpace = false := by
          refine all_false_of_drop (c := c0) (r := r0)
            (D := d - 14 - kk + 14 - kk2) ?_ hc0ws
          rw [List.drop_drop]
          have he : kk2 + (d - 14 - kk + 14 - kk2) = d - 14 - kk + 14 := by
            omega
          rw [he, hc0pos, hveq]
        rw [matchTail_stable t hwit]
        cases htlA : matchTail ((u'.drop kk).drop kk2) with
        | some k4 => rfl
        | none =>
          dsimp only
          rw [matchTail_stable t hallw]


/-- The leftmost regex match of the buffer is unchanged by appending. -/
theorem findStart_append {s t : List Char} : ∀ {i : Nat} {m : TagMatch},
    findStart s = some (i, m) → findStart (s ++ t) = some (i, m) := by
  induction s with
  | nil => intro i m h; cases h
  | cons c cs ih =>
    intro i m h
    simp only [findStart] at h
    simp only [List.cons_append, findStart, List.append_eq]
    cases hm : matchStartHere (c :: cs) with
    | some m0 =>
      rw [hm] at h
      simp only [Option.some.injEq, Prod.mk.injEq] at h
      obtain ⟨rfl, rfl⟩ := h
      have hE := mSH_append_some (t := t) hm
      rw [List.cons_append] at hE
      rw [hE]
    | none =>
      rw [hm] at h
      cases hfs : findStart cs with
      | none => rw [hfs] at h; cases h
      | some im =>
        obtain ⟨i0, m0⟩ := im
        rw [hfs] at h
        simp only [Option.some.injEq, Prod.mk.injEq] at h
        obtain ⟨rfl, rfl⟩ := h
        have hdrop := findStart_drop hfs
        have hinner : matchStartHere ((c :: cs).drop (i0 + 1)) = some m0 := by
          simpa using hdrop
        have hnone := mSH_stable_of_found (t := t) hinner (by omega)
        rw [hm] at hnone
        rw [List.cons_append] at hnone
        rw [hnone]
        dsimp only
        rw [ih hfs]

/-- A consuming parser round commutes with appending stream input: the same
input is consumed, the same actions are emitted, and the appended text ends
up at the tail of the successor buffer. -/
theorem step_append {st : PState} {es : List EmittedAction} {st' : PState}
    (more : List Char) (h : step st = some (es, st')) :
    step ⟨st.buffer ++ more, st.current⟩ =
      some (es, ⟨st'.buffer ++ more, st'.current⟩) := by
  have h9 : closeLit.length = 9 := rfl
  obtain ⟨buf, cur⟩ := st
  simp only [step] at h ⊢
  cases cur with
  | some a =>
    dsimp only at h ⊢
    cases hfo : firstOccur closeLit buf with
    | none => rw [hfo] at h; cases h
    | some i =>
      rw [hfo] at h
      dsimp only at h
      have hle := firstOccur_le hfo
      rw [firstOccur_append more hfo]
      dsimp only
      simp only [Option.some.injEq, Prod.mk.injEq] at h
      obtain ⟨rfl, rfl⟩ := h
      dsimp only
      rw [List.take_append_of_le_length (by omega),
        List.drop_append_of_le_length (by omega)]
  | none =>
    dsimp only at h ⊢
    cases hfs : findStart buf with
    | none => rw [hfs] at h; cases h
    | some im =>
      obtain ⟨i, m⟩ := im
      obtain ⟨mty, mpath, mlen⟩ := m
      rw [hfs] at h
      dsimp only at h
      rw [findStart_append hfs]
      dsimp only
      have hb := findStart_le hfs
      dsimp only at hb
      cases mty with
      | TEXT =>
        dsimp only at h ⊢
        cases hfo : firstOccur closeLit (buf.drop (i + mlen)) with
        | none => rw [hfo] at h; cases h
        | some j =>
          rw [hfo] at h
          dsimp only at h
          have hle := firstOccur_le hfo
          simp only [List.length_drop] at hle
          rw [List.drop_append_of_le_length (by omega)]
          rw [firstOccur_append more hfo]
          dsimp only
          simp only [Option.some.injEq, Prod.mk.injEq] at h
          obtain ⟨rfl, rfl⟩ := h
          dsimp only
          rw [List.take_append_of_le_length
              (by simp only [List.length_drop]; omega),
            List.drop_append_of_le_length (by omega)]
      | COMMAND =>
        dsimp only at h ⊢
        cases hfo : firstOccur closeLit (buf.drop (i + mlen)) with
        | none => rw [hfo] at h; cases h
        | some j =>
          rw [hfo] at h
          dsimp only at h
          have hle := firstOccur_le hfo
          simp only [List.length_drop] at hle
          rw [List.drop_append_of_le_length (by omega)]
          rw [firstOccur_append more hfo]
          dsimp only
          simp only [Option.some.injEq, Prod.mk.injEq] at h
          obtain ⟨rfl, rfl⟩ := h
          dsimp only
          rw [List.take_append_of_le_length
            (by simp only [List.length_drop]; omega)]
      | CREATE =>
        dsimp only at h ⊢
        simp only [Option.some.injEq, Prod.mk.injEq] at h
        obtain ⟨rfl, rfl⟩ := h
        dsimp only
        rw [List.drop_append_of_le_length (by omega)]
      | EDIT =>
        dsimp only at h ⊢
        simp only [Option.some.injEq, Prod.mk.injEq] at h
        obtain ⟨rfl, rfl⟩ := h
        dsimp only
        rw [List.drop_append_of_le_length (by omega)]
      | DELETE =>
        dsimp only at h ⊢
        split_ifs at h ⊢ with hp
        simp only [Option.some.injEq, Prod.mk.injEq] at h
        obtain ⟨rfl, rfl⟩ := h
        dsimp only
        rw [List.drop_append_of_le_length (by omega)]

/-- Unfolding one consuming round of `consume`. -/
theorem consume_step_some {st : PState} {es : List EmittedAction} {st' : PState}
    (h : step st = some (es, st')) :
    consume st = (es ++ (consume st').1, (consume st').2) := by
  have hs := step_shrinks h
  have h1 : consume st = (es ++ (processTags st.buffer.length st').1,
      (processTags st.buffer.length st').2) := by
    simp only [consume, processTags, h]
  rw [h1, @processTags_fuel st.buffer.length (st'.buffer.length + 1) st'
    (by omega) (by omega)]
  rfl

/-- Processing commutes with appending stream input: processing `buffer ++
more` emits what processing `buffer` emits, followed by what processing the
leftover state extended with `more` emits. -/
theorem consume_append (more : List Char) : ∀ st : PState,
    consume ⟨st.buffer ++ more, st.current⟩ =
      ((consume st).1 ++
        (consume ⟨(consume st).2.buffer ++ more, (consume st).2.current⟩).1,
       (consume ⟨(consume st).2.buffer ++ more, (consume st).2.current⟩).2) := by
  suffices hgen : ∀ (n : Nat) (st : PState), st.buffer.length ≤ n →
      consume ⟨st.buffer ++ more, st.current⟩ =
        ((consume st).1 ++
          (consume ⟨(consume st).2.buffer ++ more, (consume st).2.current⟩).1,
         (consume ⟨(consume st).2.buffer ++ more, (consume st).2.current⟩).2) by
    intro st
    exact hgen st.buffer.length st le_rfl
  intro n
  induction n with
  | zero =>
    intro st hle
    cases hstep : step st with
    | none =>
      rw [consume_of_step_none hstep]
      simp
    | some r =>
      obtain ⟨es, st'⟩ := r
      have := step_shrinks hstep
      omega
  | succ k ih =>
    intro st hle
    cases hstep : step st with
    | none =>
      rw [consume_of_step_none hstep]
      simp
    | some r =>
      obtain ⟨es, st'⟩ := r
      have hs := step_shrinks hstep
      have hE := step_append more hstep
      rw [consume_step_some hstep, consume_step_some hE]
      dsimp only
      rw [ih st' (by omega)]
      simp [List.append_assoc]


/-- Feeding chunks one at a time equals feeding their concatenation, from
any quiescent state. -/
theorem feedAll_flatten : ∀ (chunks : List (List Char)) (st : PState),
    step st = none → feedAll st chunks = feed st chunks.flatten := by
  intro chunks
  induction chunks with
  | nil =>
    intro st hq
    obtain ⟨buf, cur⟩ := st
    simp only [feedAll, feed, List.flatten_nil, List.append_nil]
    rw [consume_of_step_none hq]
  | cons c cs ih =>
    intro st hq
    obtain ⟨buf, cur⟩ := st
    have hCA := consume_append cs.flatten ⟨buf ++ c, cur⟩
    dsimp only at hCA
    simp only [feedAll, feed, List.flatten_cons]
    rw [← List.append_assoc]
    rw [hCA]
    have hq2 := consume_quiescent ⟨buf ++ c, cur⟩
    have hih := ih (consume ⟨buf ++ c, cur⟩).2 hq2
    simp only [feed] at hih
    rw [← hih]

/-- C1: chunk-boundary invariance of the stream tag parser. Feeding any
list of fragments one `processChunk` at a time yields exactly the emitted
actions (and final state) of processing the concatenated text in one call;
in particular the three fragments `<action typ`,
`e="CREATE" path="a.txt">hel`, `lo</action>` yield exactly one CREATE
action for `a.txt` with content `hello`. -/
theorem C1_chunk_invariance :
    (∀ chunks : List (List Char),
      feedAll initPS chunks = feed initPS chunks.flatten) ∧
    feedAll initPS [("<action typ").data,
        ("e=\x22CREATE\x22 path=\x22a.txt\x22>hel").data,
        ("lo</action>").data] =
      ([⟨ActionType.CREATE, ("a.txt").data, ("hello").data⟩], ⟨[], none⟩) := by
  constructor
  · intro chunks
    exact feedAll_flatten chunks initPS rfl
  · decide

/-- C9: a pathless DELETE start tag that is the earliest match in the
buffer is never consumed: `processActionTags` falls through every branch
without touching the buffer, and since appending stream input never changes
the earliest match, every later chunk leaves the parser stuck — no action
is ever emitted again, for this tag or for anything after it. -/
theorem C9_pathless_delete_stalls (st : PState) (i : Nat) (m : TagMatch)
    (hcur : st.current = none)
    (hfs : findStart st.buffer = some (i, m))
    (hty : m.mtype = ActionType.DELETE) (hpath : m.mpath = []) :
    ∀ chunks : List (List Char),
      feedAll st chunks = ([], ⟨st.buffer ++ chunks.flatten, st.current⟩) := by
  intro chunks
  induction chunks generalizing st with
  | nil =>
    obtain ⟨buf, cur⟩ := st
    simp [feedAll]
  | cons c cs ih =>
    have hstuck : step ⟨st.buffer ++ c, st.current⟩ = none := by
      simp only [step, hcur]
      rw [findStart_append hfs]
      simp only [hty, hpath]
      rfl
    simp only [feedAll, feed]
    rw [consume_of_step_none hstuck]
    dsimp only
    rw [ih ⟨st.buffer ++ c, st.current⟩ hcur (findStart_append hfs)]
    simp [List.flatten_cons, List.append_assoc]

/-- C9 witness: with `<action type="DELETE">x` buffered (its pathless
DELETE tag is the earliest and only match), even a complete TEXT action
arriving afterwards is never emitted. -/
theorem C9_pathless_delete_stalls_witness :
    (⟨("<action type=\x22DELETE\x22>x").data, none⟩ : PState).current = none ∧
    findStart (("<action type=\x22DELETE\x22>x").data) =
      some (0, ⟨ActionType.DELETE, [], 22⟩) ∧
    feedAll ⟨("<action type=\x22DELETE\x22>x").data, none⟩
        [("<action type=\x22TEXT\x22>hi</action>").data] =
      ([], ⟨("<action type=\x22DELETE\x22>x").data ++
        ("<action type=\x22TEXT\x22>hi</action>").data, none⟩) := by
  refine ⟨rfl, by decide, ?_⟩
  have h := C9_pathless_delete_stalls
    ⟨("<action type=\x22DELETE\x22>x").data, none⟩ 0
    ⟨ActionType.DELETE, [], 22⟩ rfl (by decide) rfl rfl
    [("<action type=\x22TEXT\x22>hi</action>").data]
  rw [h]
  simp

/-- C5: counterexample. The spec says a stream ending mid-action exposes
the accumulated content as a best-effort Action; in the code there is no
end-of-stream flush: after `<action type="CREATE" path="a.txt">hello` with
the stream ending, no action has been emitted and the parser still holds
the open CREATE action, so the accumulated `hello` is never exposed. -/
theorem C5_counterexample :
    (feed initPS (("<action type=\x22CREATE\x22 path=\x22a.txt\x22>hello").data)).1
      = [] ∧
    (feed initPS
        (("<action type=\x22CREATE\x22 path=\x22a.txt\x22>hello").data)).2.current
      = some ⟨ActionType.CREATE, ("a.txt").data, []⟩ := by
  decide

/-- C5 (amended): when the stream ends while an action is open, the parser
emits nothing for it — the partial content stays internal (in the buffer,
with the open action's header) and is only emitted if a later chunk closes
the tag. -/
theorem C5_open_action_retained :
    feed initPS (("<action type=\x22CREATE\x22 path=\x22a.txt\x22>hello").data) =
      ([], ⟨("hello").data, some ⟨ActionType.CREATE, ("a.txt").data, []⟩⟩) ∧
    feedAll initPS [("<action type=\x22CREATE\x22 path=\x22a.txt\x22>hello").data,
        ("</action>").data] =
      ([⟨ActionType.CREATE, ("a.txt").data, ("hello").data⟩], ⟨[], none⟩) := by
  decide

end Appily
